import Mathlib

/-!
Verification development for the medal-decompiler middle end.

The development shallowly embeds the SSA construction pass
(cfg-ir/src/ssa/construct.rs), the restructurer driver
(restructure/src/lib.rs) and the CFG-to-AST lifter
(cfg-to-ast/src/lifter.rs).  Supporting data types whose defining
modules are not part of the provided sources (the instruction, def-use,
function, graph and ast-ir modules) are modelled from the specification
and from the way the provided sources use them; each such definition
carries a doc comment saying so.
-/

namespace Medal

/-- Modelled from the spec: a globally unique identifier for an SSA value
within one function ("ValueId"), allocated monotonically. -/
abbrev ValueId := Nat

/-- Modelled from the spec: identifier of a basic block / graph node. -/
abbrev NodeId := Nat

/-- Modelled from the spec: position of an instruction inside a basic
block: phi prefix, inner list, or the terminator
(cfg-ir instruction::location::InstructionIndex). -/
inductive InstructionIndex where
  | phi (i : Nat)
  | inner (i : Nat)
  | terminator
deriving DecidableEq, Repr

/-- Modelled from the spec: an instruction location is a node together
with an instruction index (cfg-ir instruction::location::InstructionLocation). -/
structure InstructionLocation where
  node : NodeId
  index : InstructionIndex
deriving DecidableEq, Repr

/-- Modelled from the spec: constants are nil, booleans, numbers and
strings.  The numeric payload is modelled by an integer; no claim in this
development depends on numeric arithmetic. -/
inductive Constant where
  | nil
  | boolean (b : Bool)
  | num (n : Int)
  | str (s : String)
deriving DecidableEq, Repr

/-- Modelled from the spec: a phi instruction has a destination and a map
from predecessor node to incoming value.  The hash map is modelled as an
association list whose keys are the predecessors. -/
structure Phi where
  dest : ValueId
  incoming_values : List (NodeId × ValueId)
deriving DecidableEq, Repr

/-- Modelled from the spec: the straight-line ("inner") instructions.  A
representative subset of the variants is kept: every claim in this
development only depends on `move` being distinguishable and on each
variant exposing its values read and written. -/
inductive Inner where
  | loadConstant (dest : ValueId) (constant : Constant)
  | move (dest source : ValueId)
  | binary (dest lhs rhs : ValueId)
  | unary (dest value : ValueId)
  | call (dest : Option ValueId) (func : ValueId) (arguments : List ValueId)
deriving DecidableEq, Repr

/-- Modelled from the spec: block terminators. -/
inductive Terminator where
  | unconditionalJump (target : NodeId)
  | conditionalJump (condition : ValueId) (thenNode elseNode : NodeId)
  | numericFor (counter limit step : ValueId) (body exit : NodeId)
  | ret (values : List ValueId)
deriving DecidableEq, Repr

/-- Modelled from the spec: a basic block holds its phi prefix, inner
instructions and optional terminator. -/
structure BasicBlock where
  phi_instructions : List Phi
  inner_instructions : List Inner
  terminator : Option Terminator
deriving DecidableEq, Repr

/-- Modelled from the spec: a function is a graph of basic blocks with a
unique entry and an allocator of fresh value ids.  The graph is a node
list plus an edge list; blocks are an association list keyed by node. -/
structure Function where
  nodes : List NodeId
  edges : List (NodeId × NodeId)
  entry : Option NodeId
  blocks : List (NodeId × BasicBlock)
  next_value : ValueId
deriving DecidableEq, Repr

def predecessors (f : Function) (n : NodeId) : List NodeId :=
  (f.edges.filter (fun e => e.2 = n)).map Prod.fst

def successors (f : Function) (n : NodeId) : List NodeId :=
  (f.edges.filter (fun e => e.1 = n)).map Prod.snd

def emptyBlock : BasicBlock := ⟨[], [], none⟩

/-- Lookup of a block; a missing block is modelled by the empty block
(the source unwraps, and an empty block never produces phi marks,
reads or moves). -/
def blockOf (f : Function) (n : NodeId) : BasicBlock :=
  (f.blocks.lookup n).getD emptyBlock

/-- Replace the block stored under a node (every entry with that key is
rewritten; keys are unique in the Rust hash map). -/
def updateBlock (f : Function) (n : NodeId) (g : BasicBlock → BasicBlock) : Function :=
  { f with blocks := f.blocks.map (fun p => if p.1 = n then (p.1, g p.2) else p) }

/-! ### Values read and written (cfg-ir value_info, modelled from the spec) -/

def Phi.valuesRead (p : Phi) : List ValueId := p.incoming_values.map Prod.snd

def Phi.valuesWritten (p : Phi) : List ValueId := [p.dest]

/-- Replace every read value of a phi (its incoming values; keys are not
reads and are untouched). -/
def Phi.replaceValuesRead (p : Phi) (old new : ValueId) : Phi :=
  { p with incoming_values :=
      p.incoming_values.map (fun kv => if kv.2 = old then (kv.1, new) else kv) }

def Inner.valuesRead : Inner → List ValueId
  | .loadConstant _ _ => []
  | .move _ source => [source]
  | .binary _ lhs rhs => [lhs, rhs]
  | .unary _ v => [v]
  | .call _ func args => func :: args

def Inner.valuesWritten : Inner → List ValueId
  | .loadConstant dest _ => [dest]
  | .move dest _ => [dest]
  | .binary dest _ _ => [dest]
  | .unary dest _ => [dest]
  | .call dest _ _ => dest.toList

/-- Apply a function to every read operand of an inner instruction. -/
def Inner.mapReads (g : ValueId → ValueId) : Inner → Inner
  | .loadConstant dest c => .loadConstant dest c
  | .move dest source => .move dest (g source)
  | .binary dest lhs rhs => .binary dest (g lhs) (g rhs)
  | .unary dest v => .unary dest (g v)
  | .call dest func args => .call dest (g func) (args.map g)

def Inner.replaceValuesRead (i : Inner) (old new : ValueId) : Inner :=
  i.mapReads (fun v => if v = old then new else v)

def Terminator.valuesRead : Terminator → List ValueId
  | .unconditionalJump _ => []
  | .conditionalJump c _ _ => [c]
  | .numericFor a b c _ _ => [a, b, c]
  | .ret values => values

def Terminator.mapReads (g : ValueId → ValueId) : Terminator → Terminator
  | .unconditionalJump t => .unconditionalJump t
  | .conditionalJump c a b => .conditionalJump (g c) a b
  | .numericFor x y z n m => .numericFor (g x) (g y) (g z) n m
  | .ret values => .ret (values.map g)

def Terminator.replaceValuesRead (t : Terminator) (old new : ValueId) : Terminator :=
  t.mapReads (fun v => if v = old then new else v)

/-- Replace every read value in every instruction of a block, mirroring a
loop over `block.indices()` calling `replace_values_read`. -/
def BasicBlock.replaceValuesRead (b : BasicBlock) (old new : ValueId) : BasicBlock :=
  { phi_instructions := b.phi_instructions.map (fun p => p.replaceValuesRead old new)
    inner_instructions := b.inner_instructions.map (fun i => i.replaceValuesRead old new)
    terminator := b.terminator.map (fun t => t.replaceValuesRead old new) }

/-! ### DefUse (modelled from the spec)

The def-use module is not among the provided sources.  Modelled from the
spec: `DefUse` is a secondary index from a value to the set of
instruction locations reading it, rebuildable from the function and kept
consistent by the incremental updates; it is modelled here as the
rebuilt index. -/

/-- All instruction locations of a single block that read `v`, paired
with the block's node. -/
def blockReadLocations (n : NodeId) (b : BasicBlock) (v : ValueId) : List InstructionLocation :=
  ((b.phi_instructions.enum.filter (fun p => v ∈ p.2.valuesRead)).map
      (fun p => InstructionLocation.mk n (.phi p.1)))
    ++ ((b.inner_instructions.enum.filter (fun p => v ∈ p.2.valuesRead)).map
      (fun p => InstructionLocation.mk n (.inner p.1)))
    ++ (match b.terminator with
        | some t => if v ∈ t.valuesRead then [InstructionLocation.mk n .terminator] else []
        | none => [])

/-- Modelled from the spec: the reads component of the def-use index,
rebuilt from the function. -/
def readLocations (f : Function) (v : ValueId) : List InstructionLocation :=
  f.nodes.flatMap (fun n => blockReadLocations n (blockOf f n) v)

/-! ### Iterative pruning (construct.rs lines 213-291)

One pass scans every node's phi prefix.  A phi whose incoming values form
a set of one element is marked; if that element differs from the dest a
substitution is recorded (a hash-map insertion, so a later record for the
same dest overwrites an earlier one).  A non-trivial phi is marked when
its dest has no read location other than the phi's own location.  Marked
phis are removed (per node, indices in reverse), then every recorded
substitution is applied to every read of every block.  The Rust hash
maps are modelled as association lists in insertion order. -/

/-- Hash-map insertion: overwrite the value at an existing key, else
append. -/
def insertAssoc (l : List (ValueId × ValueId)) (k v : ValueId) : List (ValueId × ValueId) :=
  if l.any (fun p => p.1 = k) then
    l.map (fun p => if p.1 = k then (k, v) else p)
  else l ++ [(k, v)]

/-- The set of incoming values of the phi has exactly one element
(`unique.len() == 1` on the `FxHashSet` of incoming values). -/
def phiIsTrivial (p : Phi) : Bool :=
  ((p.incoming_values.map Prod.snd).dedup).length == 1

/-- The single element of a trivial phi's incoming-value set
(`unique.into_iter().next().unwrap()`); meaningful only when
`phiIsTrivial` holds. -/
def phiUniqueValue (p : Phi) : ValueId :=
  ((p.incoming_values.map Prod.snd).dedup).headD p.dest

/-- The dead-phi test of the pruning pass: the read locations of the
phi's dest, after dropping the phi's own location `(n, Phi i)`, number
zero.  (The source's filter keeps a location unless it is in the same
node, is a phi index, and is this very phi's index.) -/
def deadPhiCondition (f : Function) (n : NodeId) (i : Nat) (p : Phi) : Bool :=
  ((readLocations f p.dest).filter
      (fun loc => !(loc.node == n && loc.index == InstructionIndex.phi i))).length == 0

/-- Whether the pass marks the phi at index `i` of node `n` for removal:
trivial phis always, otherwise dead phis. -/
def phiMarked (f : Function) (n : NodeId) (i : Nat) (p : Phi) : Bool :=
  if phiIsTrivial p then true else deadPhiCondition f n i p

/-- Per-node list of marked phi indices, in index order (`phis` in the
source). -/
def nodeMarkIdxs (f : Function) (n : NodeId) : List Nat :=
  (((blockOf f n).phi_instructions.enum.filter
      (fun p => phiMarked f n p.1 p.2)).map Prod.fst)

/-- `phis_to_remove`: one entry per node with a non-empty mark list, in
node order. -/
def passMarks (f : Function) : List (NodeId × List Nat) :=
  (f.nodes.map (fun n => (n, nodeMarkIdxs f n))).filter (fun p => !p.2.isEmpty)

/-- One recording decision of the pass: a trivial phi whose unique value
differs from its dest inserts `dest ↦ unique value` into the
substitution map. -/
def subRecordStep (subs : List (ValueId × ValueId)) (p : Phi) : List (ValueId × ValueId) :=
  if phiIsTrivial p && !(phiUniqueValue p == p.dest) then
    insertAssoc subs p.dest (phiUniqueValue p)
  else subs

/-- `values_to_replace`: the substitutions recorded by the pass, one
hash-map insertion per trivial phi whose unique value differs from its
dest, in scan order. -/
def passSubs (f : Function) : List (ValueId × ValueId) :=
  f.nodes.foldl
    (fun subs n => (blockOf f n).phi_instructions.foldl subRecordStep subs)
    []

/-- Remove the phis of a block at the given (ascending) index list,
erasing in reverse so earlier indices stay valid. -/
def removePhis (b : BasicBlock) (idxs : List Nat) : BasicBlock :=
  { b with phi_instructions :=
      idxs.reverse.foldl (fun l i => l.eraseIdx i) b.phi_instructions }

/-- One removal step: drop the marked phis of one node. -/
def removalStep (f : Function) (nm : NodeId × List Nat) : Function :=
  updateBlock f nm.1 (fun b => removePhis b nm.2)

/-- Remove the marked phis: entries of `phis_to_remove` in reverse. -/
def applyRemovals (f : Function) (marks : List (NodeId × List Nat)) : Function :=
  marks.reverse.foldl removalStep f

/-- One substitution application on one node's block. -/
def subStep (n : NodeId) (f : Function) (s : ValueId × ValueId) : Function :=
  updateBlock f n (fun b => b.replaceValuesRead s.1 s.2)

/-- Apply every recorded substitution to every read of every block
(construct.rs lines 279-290: per node, per substitution, replace reads at
every instruction index). -/
def applySubs (f : Function) (subs : List (ValueId × ValueId)) : Function :=
  f.nodes.foldl (fun f n => subs.foldl (subStep n) f) f

/-- One full iteration of the pruning loop: mark, remove, substitute. -/
def prunePassApply (f : Function) : Function :=
  applySubs (applyRemovals f (passMarks f)) (passSubs f)

/-- Total number of phi instructions of the function. -/
def phiCount (f : Function) : Nat :=
  (f.nodes.map (fun n => (blockOf f n).phi_instructions.length)).sum

/-- The pruning loop, fuelled: repeat passes until a pass marks nothing
(`phis_to_remove.is_empty()` breaks the loop; a pass that marks nothing
also records no substitution). -/
def pruneLoop (fuel : Nat) (f : Function) : Function :=
  match fuel with
  | 0 => f
  | fuel + 1 =>
    if (passMarks f).isEmpty then f else pruneLoop fuel (prunePassApply f)

/-! ### Structural lemmas about the pruning pass -/

/-- Per-node phi count. -/
def phiLen (f : Function) (n : NodeId) : Nat :=
  (blockOf f n).phi_instructions.length

/-- Whether any instruction of the block reads the value. -/
def BasicBlock.readsValue (b : BasicBlock) (v : ValueId) : Bool :=
  b.phi_instructions.any (fun p => v ∈ p.valuesRead) ||
  b.inner_instructions.any (fun i => v ∈ i.valuesRead) ||
  (match b.terminator with
   | some t => v ∈ t.valuesRead
   | none => false)

/-- The dead-phi rule as the specification words it: the phi's dest has
no reader except possibly other phis in the same block. -/
def specDeadPhiReaders (f : Function) (n : NodeId) (p : Phi) : Bool :=
  (readLocations f p.dest).all
    (fun loc => loc.node == n &&
      (match loc.index with
       | .phi _ => true
       | _ => false))

/-- Example function: a two-predecessor join (node 3) whose first phi is
read only by the second phi of the same block; the second phi is kept
alive by the terminator. -/
def exDeadSelf : Function :=
  { nodes := [1, 2, 3]
    edges := [(1, 3), (2, 3)]
    entry := some 1
    blocks := [(1, ⟨[], [], some (.unconditionalJump 3)⟩),
               (2, ⟨[], [], some (.unconditionalJump 3)⟩),
               (3, ⟨[⟨10, [(1, 20), (2, 21)]⟩, ⟨11, [(1, 10), (2, 22)]⟩], [],
                    some (.conditionalJump 11 1 2)⟩)]
    next_value := 100 }

/-- Example function: a two-predecessor join with one trivial phi whose
dest feeds an inner instruction. -/
def exTrivial : Function :=
  { nodes := [1, 2, 3]
    edges := [(1, 3), (2, 3)]
    entry := some 1
    blocks := [(1, ⟨[], [], some (.unconditionalJump 3)⟩),
               (2, ⟨[], [], some (.unconditionalJump 3)⟩),
               (3, ⟨[⟨10, [(1, 20), (2, 20)]⟩], [.binary 30 10 10],
                    some (.ret [30])⟩)]
    next_value := 100 }

/-! ### Phi insertion (construct.rs lines 49-111)

The worklist algorithm over the dominance frontiers.  The frontier map
is a parameter (the graph algorithms live in the missing graph crate);
phis are appended to the frontier block with incoming values mapping
every predecessor to the value. -/

/-- Values written by a block: phi writes chained with inner writes
(construct.rs lines 52-64). -/
def blockValuesWritten (b : BasicBlock) : List ValueId :=
  b.phi_instructions.flatMap Phi.valuesWritten
    ++ b.inner_instructions.flatMap Inner.valuesWritten

/-- `node_to_values_written`, keyed by the dominance-frontier-map keys. -/
def nodeToValuesWritten (f : Function) (df : List (NodeId × List NodeId)) :
    List (NodeId × List ValueId) :=
  df.map (fun p => (p.1, blockValuesWritten (blockOf f p.1)))

/-- Push a node onto a value's entry of `value_written_to_nodes`
(hash-map entry api: append to an existing entry, else create one). -/
def addNodeEntry (l : List (ValueId × List NodeId)) (v : ValueId) (n : NodeId) :
    List (ValueId × List NodeId) :=
  if l.any (fun p => p.1 = v) then
    l.map (fun p => if p.1 = v then (p.1, p.2 ++ [n]) else p)
  else l ++ [(v, [n])]

/-- `value_written_to_nodes` (construct.rs lines 65-70). -/
def valueWrittenToNodes (f : Function) (df : List (NodeId × List NodeId)) :
    List (ValueId × List NodeId) :=
  df.foldl
    (fun acc p =>
      (blockValuesWritten (blockOf f p.1)).foldl (fun acc v => addNodeEntry acc v p.1) acc)
    []

/-- Insert a phi for `value` at a dominance-frontier node: the incoming
values map every predecessor of the node to `value`, and the phi is
pushed at the end of the phi prefix (construct.rs lines 88-100). -/
def insertPhiAt (f : Function) (dfNode : NodeId) (value : ValueId) : Function :=
  updateBlock f dfNode (fun b =>
    { b with phi_instructions :=
        b.phi_instructions ++ [⟨value, (predecessors f dfNode).map (fun p => (p, value))⟩] })

/-- State of the per-value worklist: the function being grown, the set
of nodes already holding a phi for the value, and the worklist (the Vec
pops from its end; modelled with the top at the head). -/
structure PhiWorkState where
  f : Function
  nodesWithPhi : List NodeId
  stack : List NodeId

/-- Process the dominance frontiers of one popped node
(construct.rs lines 85-108): insert a phi at each frontier node not yet
holding one, and extend the worklist when the frontier node does not
itself write the value. -/
def processFrontiers (dfs : List NodeId) (ntw : List (NodeId × List ValueId))
    (value : ValueId) (st : PhiWorkState) : PhiWorkState :=
  dfs.foldl
    (fun st dfNode =>
      if dfNode ∈ st.nodesWithPhi then st
      else
        let f2 := insertPhiAt st.f dfNode value
        let push :=
          match ntw.lookup dfNode with
          | some ws => !(value ∈ ws)
          | none => true
        { f := f2
          nodesWithPhi := dfNode :: st.nodesWithPhi
          stack := if push then dfNode :: st.stack else st.stack })
    st

/-- The per-value worklist loop (`while let Some(node) = nodes.pop()`),
fuelled. -/
def phiWorkLoop (df : List (NodeId × List NodeId)) (ntw : List (NodeId × List ValueId))
    (value : ValueId) : Nat → PhiWorkState → PhiWorkState
  | 0, st => st
  | fuel + 1, st =>
    match st.stack with
    | [] => st
    | node :: rest =>
      let st2 := { st with stack := rest }
      let st3 :=
        match df.lookup node with
        | some dfs => processFrontiers dfs ntw value st2
        | none => st2
      phiWorkLoop df ntw value fuel st3

/-- Phi insertion: run the worklist for every written value.  Each
value's `nodes_with_phi` set starts empty; its worklist is seeded with
the nodes writing it (Vec order, popped from the end). -/
def phiInsertion (fuel : Nat) (f : Function) (df : List (NodeId × List NodeId)) : Function :=
  let ntw := nodeToValuesWritten f df
  (valueWrittenToNodes f df).foldl
    (fun f p =>
      (phiWorkLoop df ntw p.1 fuel
        { f := f, nodesWithPhi := [], stack := p.2.reverse }).f)
    f

/-! ### Renaming (`split_values`, construct.rs lines 115-202)

The dominator-tree walk with an explicit stack of (node, value-stacks)
pairs.  A Rust Vec pushes at the end and reads `last()`; value stacks
are modelled with the top at the head. -/

/-- The per-value stacks of current names. -/
abbrev ValueStacks := List (ValueId × List ValueId)

/-- Rewrite of a read through the stacks: the top of the value's stack
when one exists, otherwise the value itself. -/
def topFun (vs : ValueStacks) : ValueId → ValueId :=
  fun v =>
    match vs.lookup v with
    | some st => st.headD v
    | none => v

/-- Push a fresh name onto an existing stack. -/
def stacksPush (vs : ValueStacks) (v newValue : ValueId) : ValueStacks :=
  vs.map (fun p => if p.1 = v then (p.1, newValue :: p.2) else p)

/-- Start the stack of a first-time write at the original name. -/
def stacksInit (vs : ValueStacks) (v : ValueId) : ValueStacks := vs ++ [(v, [v])]

/-- Process one write (construct.rs lines 139-168): a value already
carrying a stack is split into a fresh name, which is pushed and written
in place; a first-time write starts its stack and stays in place. -/
def processWrite (f : Function) (vs : ValueStacks) (w : ValueId) :
    Function × ValueStacks × ValueId :=
  match vs.lookup w with
  | some _ =>
    let newValue := f.next_value
    ({ f with next_value := f.next_value + 1 }, stacksPush vs w newValue, newValue)
  | none => (f, stacksInit vs w, w)

/-- Write the (single) written operand of an inner instruction. -/
def Inner.setWrite : Inner → ValueId → Inner
  | .loadConstant _ c, d => .loadConstant d c
  | .move _ s, d => .move d s
  | .binary _ l r, d => .binary d l r
  | .unary _ v, d => .unary d v
  | .call dq fn args, d => .call (dq.map (fun _ => d)) fn args

/-- Visit one inner instruction: rewrite its reads through the current
stacks (non-phi indices only), then process its write. -/
def processInner (f : Function) (vs : ValueStacks) (i : Inner) :
    Function × ValueStacks × Inner :=
  match (i.mapReads (topFun vs)).valuesWritten with
  | [w] =>
    let r := processWrite f vs w
    (r.1, r.2.1, (i.mapReads (topFun vs)).setWrite r.2.2)
  | _ => (f, vs, i.mapReads (topFun vs))

/-- Visit one phi instruction: reads are skipped at phi indices; the
written dest is processed. -/
def processPhiWrite (f : Function) (vs : ValueStacks) (p : Phi) :
    Function × ValueStacks × Phi :=
  let r := processWrite f vs p.dest
  (r.1, r.2.1, { p with dest := r.2.2 })

/-- Visit the phi prefix: writes only (reads are skipped at phi
indices). -/
def visitPhis (f : Function) (vs : ValueStacks) (ps : List Phi) :
    Function × ValueStacks × List Phi :=
  ps.foldl
    (fun (acc : Function × ValueStacks × List Phi) p =>
      let r := processPhiWrite acc.1 acc.2.1 p
      (r.1, r.2.1, acc.2.2 ++ [r.2.2]))
    (f, vs, [])

/-- Visit the inner instructions in order: reads then write, each seeing
the stacks left by the previous instruction. -/
def visitInners (f : Function) (vs : ValueStacks) (is : List Inner) :
    Function × ValueStacks × List Inner :=
  is.foldl
    (fun (acc : Function × ValueStacks × List Inner) i =>
      let r := processInner acc.1 acc.2.1 i
      (r.1, r.2.1, acc.2.2 ++ [r.2.2]))
    (f, vs, [])

/-- Visit a block's instructions in index order: phi prefix (writes
only), inner instructions (reads then write), terminator (reads; the
modelled terminators write nothing). -/
def visitBlock (f : Function) (vs : ValueStacks) (node : NodeId) :
    Function × ValueStacks :=
  let b := blockOf f node
  let s1 := visitPhis f vs b.phi_instructions
  let s2 := visitInners s1.1 s1.2.1 b.inner_instructions
  let t2 := b.terminator.map (fun t => t.mapReads (topFun s2.2.1))
  (updateBlock s2.1 node (fun _ => ⟨s1.2.2, s2.2.2, t2⟩), s2.2.1)

/-- After visiting a block, rewrite in each successor's phis the
incoming value for this predecessor through the current stacks
(construct.rs lines 173-183). -/
def updateSuccessorPhis (f : Function) (node : NodeId) (vs : ValueStacks) : Function :=
  (successors f node).foldl
    (fun f succ =>
      updateBlock f succ (fun b =>
        let phis := b.phi_instructions.map (fun p =>
          { p with incoming_values := p.incoming_values.map (fun kv =>
              if kv.1 = node then (kv.1, topFun vs kv.2) else kv) })
        { b with phi_instructions := phis }))
    f

/-- Dominator-tree successors of a node (the tree is an edge list). -/
def domSuccessors (domTree : List (NodeId × NodeId)) (n : NodeId) : List NodeId :=
  (domTree.filter (fun e => e.1 = n)).map Prod.snd

/-- The walk (construct.rs lines 119-193), fuelled: pop a (node, stacks)
pair; visit the node if new; then push the node back under the first
unvisited dominator-tree child together with that child. -/
def splitValuesLoop (domTree : List (NodeId × NodeId)) :
    Nat → Function → List NodeId → List (NodeId × ValueStacks) → Function
  | 0, f, _, _ => f
  | fuel + 1, f, visited, stack =>
    match stack with
    | [] => f
    | (node, vs) :: rest =>
      let step :=
        if node ∈ visited then (f, vs, visited)
        else
          let r := visitBlock f vs node
          (updateSuccessorPhis r.1 node r.2, r.2, node :: visited)
      let stack2 :=
        match (domSuccessors domTree node).find? (fun c => !(c ∈ step.2.2)) with
        | some child => (child, step.2.1) :: (node, step.2.1) :: rest
        | none => rest
      splitValuesLoop domTree fuel step.1 step.2.2 stack2

/-- `split_values`: the renaming walk from the root with empty stacks. -/
def splitValues (fuel : Nat) (f : Function) (root : NodeId)
    (domTree : List (NodeId × NodeId)) : Function :=
  splitValuesLoop domTree fuel f [] [(root, [])]

/-! ### Copy elision (construct.rs lines 296-315) -/

/-- Remove the inner instruction at an index of a node. -/
def removeInnerAt (f : Function) (n : NodeId) (i : Nat) : Function :=
  updateBlock f n (fun b =>
    { b with inner_instructions := b.inner_instructions.eraseIdx i })

/-- Replace every read of `old` by `new` in every block; the source
walks the def-use read locations of `old`, which is equivalent since
locations not reading `old` are unchanged by the replacement. -/
def replaceReadsEverywhere (f : Function) (old new : ValueId) : Function :=
  { f with blocks := f.blocks.map (fun p => (p.1, p.2.replaceValuesRead old new)) }

/-- One step of the per-block pass: a snapshot `Move { dest, source }`
replaces every read of `dest` by `source` across the function and is
deleted at its index; any other snapshot instruction does nothing. -/
def elideStep (f : Function) (node : NodeId) (k : Nat) (a : Inner) : Function :=
  match a with
  | .move dest source => removeInnerAt (replaceReadsEverywhere f dest source) node k
  | _ => f

/-- Process one block's snapshot of inner instructions in reverse
order. -/
def copyElisionBlock (f : Function) (node : NodeId) (snapshot : List Inner) : Function :=
  (snapshot.enum.reverse).foldl (fun f ii => elideStep f node ii.1 ii.2) f

/-- Copy elision over a snapshot (`clone`) of the block map. -/
def copyElision (f : Function) : Function :=
  f.blocks.foldl (fun acc nb => copyElisionBlock acc nb.1 nb.2.inner_instructions) f

/-! ### The construction driver (construct.rs lines 28-321)

The graph algorithms (immediate dominators, dominance frontiers,
dominator tree) live in the missing graph crate; they are parameters
returning `Except GraphError`.  Modelled from the spec: construction
fails only with `NoEntry` or a graph error. -/

/-- Modelled from the spec: the graph crate's error kind; `NoEntry` is
the variant named by the source, remaining kinds are collapsed into
`other`. -/
inductive GraphError where
  | noEntry
  | other
deriving DecidableEq, Repr

/-- The SSA construction error (`super::error::Error`): a wrapped graph
error, per the source's `Error::Graph(..)` and the spec's failure
model. -/
inductive Error where
  | graph (e : GraphError)
deriving DecidableEq, Repr

/-- Oracle for `compute_immediate_dominators`. -/
abbrev ImmDomOracle := Function → NodeId → Except GraphError (List (NodeId × NodeId))

/-- Oracle for `compute_dominance_frontiers`. -/
abbrev FrontierOracle :=
  Function → NodeId → List (NodeId × NodeId) → Except GraphError (List (NodeId × List NodeId))

/-- Oracle for `dominator_tree`. -/
abbrev DomTreeOracle :=
  Function → List (NodeId × NodeId) → Except GraphError (List (NodeId × NodeId))

/-- `construct`: entry lookup, graph analyses, phi insertion, renaming,
iterated pruning (run with enough fuel to reach its fixpoint), copy
elision. -/
def construct (o1 : ImmDomOracle) (o2 : FrontierOracle) (o3 : DomTreeOracle)
    (fuel : Nat) (f : Function) : Except Error Function :=
  match f.entry with
  | none => .error (.graph .noEntry)
  | some entry =>
    match o1 f entry with
    | .error e => .error (.graph e)
    | .ok idoms =>
      match o2 f entry idoms with
      | .error e => .error (.graph e)
      | .ok df0 =>
        let df := df0.filter (fun p => !p.2.isEmpty)
        let f1 := phiInsertion fuel f df
        match o3 f1 idoms with
        | .error e => .error (.graph e)
        | .ok dt =>
          let f2 := splitValues fuel f1 entry dt
          let f3 := pruneLoop (phiCount f2 + 1) f2
          .ok (copyElision f3)

/-- A function without an entry node. -/
def exNoEntry : Function :=
  { nodes := [1]
    edges := []
    entry := none
    blocks := [(1, ⟨[], [], some (.ret [])⟩)]
    next_value := 10 }

/-- Trivial successful oracles for witnesses. -/
def trivImmDoms : ImmDomOracle := fun _ _ => .ok []

/-- Trivial successful frontier oracle. -/
def trivFrontiers : FrontierOracle := fun _ _ _ => .ok []

/-- Trivial successful dominator-tree oracle. -/
def trivDomTree : DomTreeOracle := fun _ _ => .ok []

/-- Whether an inner instruction is a `Move`. -/
def Inner.isMove : Inner → Bool
  | .move _ _ => true
  | _ => false

/-- No block of the function contains a `Move` instruction. -/
def noMoves (f : Function) : Bool :=
  f.blocks.all (fun nb => nb.2.inner_instructions.all (fun i => !i.isMove))

/-- Apply a list of read-replacements to a block in order. -/
def applyRepls (l : List (ValueId × ValueId)) (b : BasicBlock) : BasicBlock :=
  l.foldl (fun b s => b.replaceValuesRead s.1 s.2) b

/-- Example function: a diamond whose branches both write value 7,
joined by a move at the join block. -/
def exDiamond : Function :=
  { nodes := [1, 2, 3, 4]
    edges := [(1, 2), (1, 3), (2, 4), (3, 4)]
    entry := some 1
    blocks := [(1, ⟨[], [.loadConstant 7 (.num 0), .loadConstant 8 .nil],
                    some (.conditionalJump 8 2 3)⟩),
               (2, ⟨[], [.loadConstant 7 (.num 1)], some (.unconditionalJump 4)⟩),
               (3, ⟨[], [.loadConstant 7 (.num 2)], some (.unconditionalJump 4)⟩),
               (4, ⟨[], [.move 9 7], some (.ret [9])⟩)]
    next_value := 100 }

/-- Dominance frontiers of `exDiamond` (both branch blocks have frontier
at the join). -/
def exDiamondDF : List (NodeId × List NodeId) := [(2, [4]), (3, [4])]

/-- Dominator tree of `exDiamond` (the entry dominates everything). -/
def exDiamondDT : List (NodeId × NodeId) := [(1, 2), (1, 3), (1, 4)]

/-- Set-equality of two node lists (mutual containment). -/
def sameMembers (l1 l2 : List NodeId) : Bool :=
  l1.all (fun x => x ∈ l2) && l2.all (fun x => x ∈ l1)

/-- The C5 invariant: for every phi of every block, the domain of its
incoming-value map equals the predecessor set of its block. -/
def phiDomainsOk (f : Function) : Bool :=
  f.nodes.all (fun n =>
    (blockOf f n).phi_instructions.all
      (fun p => sameMembers (p.incoming_values.map Prod.fst) (predecessors f n)))

/-- The C5 invariant, stated as a proposition. -/
def phiDomainsP (f : Function) : Prop :=
  ∀ n ∈ f.nodes, ∀ p ∈ (blockOf f n).phi_instructions,
    ∀ x, x ∈ p.incoming_values.map Prod.fst ↔ x ∈ predecessors f n

/-- The SSA-constructed diamond, for witnesses. -/
def exDiamondConstructed : Function :=
  match construct trivImmDoms (fun _ _ _ => Except.ok exDiamondDF)
      (fun _ _ => Except.ok exDiamondDT) 50 exDiamond with
  | .ok g => g
  | .error _ => exDiamond

/-! ### The ast crate (src/ast/src/lib.rs)

`Statement` is the eleven-variant sum of src/ast/src/lib.rs lines
187-199; the payload modules (assign.rs, if.rs, ...) are not among the
sources, so each payload is abstracted to an opaque number, except
`Comment` whose payload (`text: String`, lines 168-177) is in the
sources.  A `Block` is its vector of statements. -/

inductive AstStatement where
  | callS (payload : Nat)
  | assign (payload : Nat)
  | ifS (payload : Nat)
  | goto (payload : Nat)
  | label (payload : Nat)
  | whileS (payload : Nat)
  | retS (payload : Nat)
  | continueS
  | breakS
  | close (payload : Nat)
  | comment (text : String)
deriving DecidableEq, Repr

abbrev AstBlock := List AstStatement

/-! ### The restructurer driver (restructure/src/lib.rs)

The cfg crate's function type is not among the sources; modelled from
usage: a graph whose blocks carry an ast block (`.ast`) and a terminator
exposing `as_conditional`.  The four rewrite rules live in the missing
compound/conditional/jump/loop modules and are parameters: a rule
returns the mutated function when it fires and `none` otherwise. -/

inductive CfgTerminator where
  | jump (target : NodeId)
  | conditional (thenNode elseNode : NodeId)
deriving DecidableEq, Repr

/-- `Terminator::as_conditional`, yielding the then/else edge nodes. -/
def CfgTerminator.as_conditional : CfgTerminator → Option (NodeId × NodeId)
  | .conditional a b => some (a, b)
  | _ => none

structure CfgBlock where
  ast : AstBlock
  terminator : Option CfgTerminator
deriving DecidableEq, Repr

structure CfgFunction where
  nodes : List NodeId
  edges : List (NodeId × NodeId)
  entry : Option NodeId
  blocks : List (NodeId × CfgBlock)
deriving DecidableEq, Repr

/-- `successor_blocks`. -/
def successorBlocks (g : CfgFunction) (n : NodeId) : List NodeId :=
  (g.edges.filter (fun e => e.1 = n)).map Prod.snd

/-- A panic inside `try_match_pattern`: a failed unwrap of the block,
its terminator, or `as_conditional`, or the `unreachable!` arm for more
than two successors. -/
inductive MatchPanic where
  | blockMissing
  | noTerminator
  | notConditional
  | unreachableManySuccessors
deriving DecidableEq, Repr

/-- `match_compound_conditional(node, then, else)`. -/
abbrev CompoundRule := CfgFunction → NodeId → NodeId → NodeId → Option CfgFunction

/-- `try_collapse_loop(node, dominators)` (dominators captured by the
oracle). -/
abbrev LoopRule := CfgFunction → NodeId → Option CfgFunction

/-- `match_jump(node, Some(successor), dominators)`. -/
abbrev JumpRule := CfgFunction → NodeId → NodeId → Option CfgFunction

/-- `match_conditional(node, then, else, dominators)`. -/
abbrev CondRule := CfgFunction → NodeId → NodeId → NodeId → Option CfgFunction

/-- The part of `try_match_pattern` after the compound attempt
(restructure/src/lib.rs lines 86-117): loop collapse, then the match on
the successor count (jump for one successor, plain conditional for two,
`unreachable!` beyond). -/
def tryMatchRest (loopRule : LoopRule) (jump : JumpRule) (conditional : CondRule)
    (g : CfgFunction) (node : NodeId) (succs : List NodeId) :
    Except MatchPanic (Bool × CfgFunction) :=
  match loopRule g node with
  | some g2 => .ok (true, g2)
  | none =>
    match succs with
    | [] => .ok (false, g)
    | [s0] =>
      match jump g node s0 with
      | some g2 => .ok (true, g2)
      | none => .ok (false, g)
    | [_, _] =>
      match g.blocks.lookup node with
      | none => .error .blockMissing
      | some blk =>
        match blk.terminator with
        | none => .error .noTerminator
        | some t =>
          match t.as_conditional with
          | none => .error .notConditional
          | some pe =>
            match conditional g node pe.1 pe.2 with
            | some g2 => .ok (true, g2)
            | none => .ok (false, g)
    | _ => .error .unreachableManySuccessors

/-- `GraphStructurer::try_match_pattern` (restructure/src/lib.rs lines
65-118): with two successors the conditional terminator is unwrapped and
the compound-conditional rule tried first; then loop collapse; then the
match on the successor count. -/
def tryMatchPattern (compound : CompoundRule) (loopRule : LoopRule) (jump : JumpRule)
    (conditional : CondRule) (g : CfgFunction) (node : NodeId) :
    Except MatchPanic (Bool × CfgFunction) :=
  let succs := successorBlocks g node
  if succs.length = 2 then
    match g.blocks.lookup node with
    | none => .error .blockMissing
    | some blk =>
      match blk.terminator with
      | none => .error .noTerminator
      | some t =>
        match t.as_conditional with
        | none => .error .notConditional
        | some pe =>
          match compound g node pe.1 pe.2 with
          | some g2 => .ok (true, g2)
          | none => tryMatchRest loopRule jump conditional g node succs
  else tryMatchRest loopRule jump conditional g node succs

/-- The tail of `GraphStructurer::structure` (restructure/src/lib.rs
lines 156-177), applied to the post-collapse function: when the node
count differs from one, a block headed by the diagnostic comment and
followed by the root block's statements; otherwise the root block's
statements.  `remove_block(root).unwrap()` is modelled by the option. -/
def structureResult (g : CfgFunction) (root : NodeId) : Option AstBlock :=
  let nodes := g.nodes.length
  if nodes ≠ 1 then
    (g.blocks.lookup root).map (fun blk =>
      AstStatement.comment ("failed to collapse, total nodes: " ++ Nat.repr nodes)
        :: blk.ast)
  else (g.blocks.lookup root).map (fun blk => blk.ast)

/-- `structure`: collapse (a parameter, living in the missing rule
modules' fixpoint) followed by the diagnostic tail. -/
def structureWith (collapse : CfgFunction → CfgFunction) (f : CfgFunction)
    (root : NodeId) : Option AstBlock :=
  structureResult (collapse f) root

/-- The C2 claim's reading of the failure output: the comment followed
by the concatenation of all remaining nodes' statements. -/
def specConcatAll (g : CfgFunction) : AstBlock :=
  AstStatement.comment ("failed to collapse, total nodes: " ++ Nat.repr g.nodes.length)
    :: g.nodes.flatMap (fun n => ((g.blocks.lookup n).map (fun blk => blk.ast)).getD [])

/-- A two-node function that fails to collapse: root 0 and a leftover
node 1 with a non-empty block. -/
def exStuck : CfgFunction :=
  { nodes := [0, 1]
    edges := [(0, 1)]
    entry := some 0
    blocks := [(0, ⟨[AstStatement.breakS], some (.jump 1)⟩),
               (1, ⟨[AstStatement.continueS], none⟩)] }

/-! ### The CFG-to-AST lifter (cfg-to-ast/src/lifter.rs)

The ast-ir crate is not among the sources; its statements and
expressions are modelled from the lifter's usage (the always-`None`
position fields are omitted). -/

inductive AstIrLit where
  | nil
  | boolean (b : Bool)
  | num (n : Int)
  | str (s : String)
deriving DecidableEq, Repr

inductive AstIrExpr where
  | localE (l : ValueId)
  | lit (l : AstIrLit)
deriving DecidableEq, Repr

inductive AstIrStat where
  | assign (vars : List AstIrExpr) (values : List AstIrExpr)
  | ifS (condition : AstIrExpr) (then_block : List AstIrStat)
      (else_block : Option (List AstIrStat))
  | ret (values : List AstIrExpr)
  | whileS (condition : AstIrExpr) (body : List AstIrStat)
  | breakS
deriving Repr

/-- `assign_local` (lifter.rs lines 15-21). -/
def assign_local (localv : ValueId) (value : AstIrExpr) : AstIrStat :=
  .assign [.localE localv] [value]

/-- `if_statement` (lifter.rs lines 23-30): empty then block and empty
(but present) else block. -/
def if_statement (condition : ValueId) : AstIrStat :=
  .ifS (.localE condition) [] (some [])

/-- `return_statement` (lifter.rs lines 32-37): the values list is
always empty. -/
def return_statement : AstIrStat := .ret []

/-- `while_statement` (lifter.rs lines 39-45). -/
def while_statement (condition : AstIrExpr) (body : List AstIrStat) : AstIrStat :=
  .whileS condition body

/-- `break_statement` (lifter.rs lines 47-49). -/
def break_statement : AstIrStat := .breakS

/-- `constant` (lifter.rs lines 51-62). -/
def constantExpr : Constant → AstIrExpr
  | .nil => .lit .nil
  | .boolean v => .lit (.boolean v)
  | .num v => .lit (.num v)
  | .str v => .lit (.str v)

/-- The inner-instruction translation of `lift_block` (lifter.rs lines
109-123): loads and moves become assignments, everything else is
skipped. -/
def liftInners (is : List Inner) : List AstIrStat :=
  is.foldl
    (fun body instr =>
      match instr with
      | .loadConstant dest c => body ++ [assign_local dest (constantExpr c)]
      | .move dest source => body ++ [assign_local dest (.localE source)]
      | _ => body)
    []

/-- `Lifter::lift_block` (lifter.rs lines 104-144): inner instructions,
then the terminator (nothing for an unconditional jump, an empty if
shell for a conditional jump, an empty return for a return; a numeric
for or a missing terminator panics, modelled by `none`), wrapped in
`while true` for loop headers. -/
def lift_block (f : Function) (node : NodeId) (is_while : Bool) :
    Option (List AstIrStat) :=
  match f.blocks.lookup node with
  | none => none
  | some block =>
    let body := liftInners block.inner_instructions
    match block.terminator with
    | some (.unconditionalJump _) =>
      some (if is_while
        then [while_statement (constantExpr (.boolean true)) body]
        else body)
    | some (.conditionalJump c _ _) =>
      some (if is_while
        then [while_statement (constantExpr (.boolean true)) (body ++ [if_statement c])]
        else body ++ [if_statement c])
    | some (.numericFor ..) => none
    | some (.ret _) =>
      some (if is_while
        then [while_statement (constantExpr (.boolean true)) (body ++ [return_statement])]
        else body ++ [return_statement])
    | none => none

/-- A one-block function returning one value. -/
def exRet : Function :=
  { nodes := [0]
    edges := []
    entry := some 0
    blocks := [(0, ⟨[], [], some (.ret [5])⟩)]
    next_value := 10 }

/-! ### The `lift` link dispatch (lifter.rs lines 146-166 and 196-247) -/

/-- The `Link` shape recorded per node (lifter.rs lines 64-70). -/
inductive Link where
  | extend (target : NodeId)
  | ifLink (thenBranch : Link) (elseBranch : Option Link) (exit : Option NodeId)
  | breakLink
  | noneLink
deriving Repr

/-- The traversal state of `Lifter::lift`: its stack, visited list and
stop set (the Vec stack is modelled with its top at the head). -/
structure LiftState where
  stack : List NodeId
  visited : List NodeId
  stops : List NodeId
deriving DecidableEq, Repr

/-- `Lifter::edge` (lifter.rs lines 146-166). -/
def edgeLink (s : LiftState) (loop_exits : List NodeId) (target : NodeId) :
    LiftState × Link :=
  if target ∉ s.stops then
    if target ∉ s.visited then
      ({ s with stack := target :: s.stack }, .extend target)
    else (s, .noneLink)
  else if target ∈ loop_exits then (s, .breakLink)
  else (s, .noneLink)

/-- A panic inside the per-node dispatch of `Lifter::lift`: the
`panic!("too many successors")` arm, or the
`assert!(successors[0] != exit)`. -/
inductive LiftPanic where
  | tooManySuccessors
  | assertFailed
deriving DecidableEq, Repr

/-- The per-node link dispatch of `Lifter::lift` (lifter.rs lines
202-246): no successor yields no link, one successor an edge, two
successors an if link through the immediate post-dominator (pushed and
marked as a stop when present; the else edge is dropped when the second
successor is that exit and it is not a loop exit); more than two
successors is the cited panic. -/
def linkStep (postDomPred : NodeId → Option NodeId) (loop_exits : List NodeId)
    (f : Function) (s : LiftState) (node : NodeId) :
    Except LiftPanic (LiftState × Link) :=
  match successors f node with
  | [] => .ok (s, .noneLink)
  | [s0] => .ok (edgeLink s loop_exits s0)
  | [s0, s1] =>
    match postDomPred node with
    | some ex =>
      if s0 = ex then .error .assertFailed
      else
        let s2 := { s with stack := ex :: s.stack, stops := ex :: s.stops }
        let hasElse := !(s1 == ex && !(ex ∈ loop_exits))
        let r1 := edgeLink s2 loop_exits s0
        if hasElse then
          let r2 := edgeLink r1.1 loop_exits s1
          .ok (r2.1, .ifLink r1.2 (some r2.2) (some ex))
        else .ok (r1.1, .ifLink r1.2 none (some ex))
    | none =>
      let r1 := edgeLink s loop_exits s0
      let r2 := edgeLink r1.1 loop_exits s1
      .ok (r2.1, .ifLink r1.2 (some r2.2) none)
  | _ => .error .tooManySuccessors

/-- A conditional two-successor cfg node for witnesses. -/
def exCfg : CfgFunction :=
  { nodes := [0, 1, 2]
    edges := [(0, 1), (0, 2)]
    entry := some 0
    blocks := [(0, ⟨[], some (.conditional 1 2)⟩),
               (1, ⟨[AstStatement.breakS], none⟩),
               (2, ⟨[AstStatement.continueS], none⟩)] }

theorem lookup_map_if (l : List (NodeId × BasicBlock)) (n m : NodeId)
    (g : BasicBlock → BasicBlock) :
    (l.map (fun p => if p.1 = n then (p.1, g p.2) else p)).lookup m =
      if m = n then (l.lookup n).map g else l.lookup m := by
  induction l with
  | nil => simp [List.lookup]
  | cons p t ih =>
    obtain ⟨k, v⟩ := p
    simp only [List.map_cons]
    by_cases hk : k = n
    · subst hk
      rw [if_pos rfl]
      by_cases hm : m = k
      · subst hm
        simp [List.lookup]
      · have hbeq : (m == k) = false := beq_eq_false_iff_ne.mpr hm
        simp [List.lookup, hbeq, hm, ih]
    · rw [if_neg hk]
      by_cases hm : m = k
      · subst hm
        simp [List.lookup, hk]
      · have hbeq : (m == k) = false := beq_eq_false_iff_ne.mpr hm
        have hbeq2 : (n == k) = false := beq_eq_false_iff_ne.mpr (Ne.symm hk)
        simp [List.lookup, hbeq, hbeq2, hm, ih]

theorem blockOf_updateBlock (f : Function) (n m : NodeId) (g : BasicBlock → BasicBlock) :
    blockOf (updateBlock f n g) m =
      if m = n then ((f.blocks.lookup n).map g).getD emptyBlock else blockOf f m := by
  unfold blockOf updateBlock
  simp only [lookup_map_if]
  by_cases hm : m = n <;> simp [hm]

theorem blockOf_updateBlock_self (f : Function) (n : NodeId) (g : BasicBlock → BasicBlock) :
    blockOf (updateBlock f n g) n = ((f.blocks.lookup n).map g).getD emptyBlock := by
  rw [blockOf_updateBlock]
  simp

theorem nodes_updateBlock (f : Function) (n : NodeId) (g : BasicBlock → BasicBlock) :
    (updateBlock f n g).nodes = f.nodes := rfl

theorem phiLen_updateBlock_le (f : Function) (n m : NodeId) (g : BasicBlock → BasicBlock)
    (hg : ∀ b, (g b).phi_instructions.length ≤ b.phi_instructions.length) :
    phiLen (updateBlock f n g) m ≤ phiLen f m := by
  unfold phiLen
  rw [blockOf_updateBlock]
  by_cases hm : m = n
  · subst hm
    cases h : f.blocks.lookup m with
    | none => simp [blockOf, h]
    | some b => simpa [blockOf, h] using hg b
  · simp [hm]

theorem phiLen_updateBlock_eq (f : Function) (n m : NodeId) (g : BasicBlock → BasicBlock)
    (hg : ∀ b, (g b).phi_instructions.length = b.phi_instructions.length) :
    phiLen (updateBlock f n g) m = phiLen f m := by
  unfold phiLen
  rw [blockOf_updateBlock]
  by_cases hm : m = n
  · subst hm
    cases h : f.blocks.lookup m with
    | none => simp [blockOf, h]
    | some b => simpa [blockOf, h] using hg b
  · simp [hm]

theorem length_foldl_eraseIdx_le (idxs : List Nat) (l : List Phi) :
    (idxs.foldl (fun l i => l.eraseIdx i) l).length ≤ l.length := by
  induction idxs generalizing l with
  | nil => simp
  | cons i rest ih =>
    refine le_trans (ih (l.eraseIdx i)) ?_
    rw [List.length_eraseIdx]
    split <;> omega

theorem length_foldl_eraseIdx_lt (idxs : List Nat) (l : List Phi)
    (h : ∃ i ∈ idxs, i < l.length) :
    (idxs.foldl (fun l i => l.eraseIdx i) l).length < l.length := by
  induction idxs generalizing l with
  | nil => simp at h
  | cons i rest ih =>
    by_cases hi : i < l.length
    · have h1 : (l.eraseIdx i).length = l.length - 1 := by
        rw [List.length_eraseIdx]; simp [hi]
      have h2 := length_foldl_eraseIdx_le rest (l.eraseIdx i)
      simp only [List.foldl_cons]
      omega
    · have hnoop : l.eraseIdx i = l := List.eraseIdx_of_length_le (by omega)
      simp only [List.foldl_cons, hnoop]
      apply ih
      rcases h with ⟨j, hj, hjl⟩
      rcases List.mem_cons.mp hj with rfl | hmem
      · omega
      · exact ⟨j, hmem, hjl⟩

theorem removePhis_len_le (b : BasicBlock) (idxs : List Nat) :
    (removePhis b idxs).phi_instructions.length ≤ b.phi_instructions.length :=
  length_foldl_eraseIdx_le _ _

theorem phiLen_removalStep_le (f : Function) (nm : NodeId × List Nat) (m : NodeId) :
    phiLen (removalStep f nm) m ≤ phiLen f m :=
  phiLen_updateBlock_le f nm.1 m _ (fun b => removePhis_len_le b nm.2)

theorem phiLen_removalFold_le (l : List (NodeId × List Nat)) (f : Function) (m : NodeId) :
    phiLen (l.foldl removalStep f) m ≤ phiLen f m := by
  induction l generalizing f with
  | nil => simp
  | cons e t ih =>
    exact le_trans (ih (removalStep f e)) (phiLen_removalStep_le f e m)

theorem nodes_removalFold (l : List (NodeId × List Nat)) (f : Function) :
    (l.foldl removalStep f).nodes = f.nodes := by
  induction l generalizing f with
  | nil => rfl
  | cons e t ih =>
    rw [List.foldl_cons]
    exact ih (removalStep f e)

theorem phiLen_subStep (n : NodeId) (f : Function) (s : ValueId × ValueId) (m : NodeId) :
    phiLen (subStep n f s) m = phiLen f m :=
  phiLen_updateBlock_eq f n m _ (fun b => by simp [BasicBlock.replaceValuesRead])

theorem phiLen_subFold (subs : List (ValueId × ValueId)) (n : NodeId) (f : Function)
    (m : NodeId) :
    phiLen (subs.foldl (subStep n) f) m = phiLen f m := by
  induction subs generalizing f with
  | nil => rfl
  | cons s t ih => rw [List.foldl_cons, ih, phiLen_subStep]

theorem nodes_subFold (subs : List (ValueId × ValueId)) (n : NodeId) (f : Function) :
    (subs.foldl (subStep n) f).nodes = f.nodes := by
  induction subs generalizing f with
  | nil => rfl
  | cons s t ih =>
    rw [List.foldl_cons]
    exact ih (subStep n f s)

theorem phiLen_subOuterFold (ns : List NodeId) (subs : List (ValueId × ValueId))
    (f : Function) (m : NodeId) :
    phiLen (ns.foldl (fun f n => subs.foldl (subStep n) f) f) m = phiLen f m := by
  induction ns generalizing f with
  | nil => rfl
  | cons n t ih => rw [List.foldl_cons, ih, phiLen_subFold]

theorem nodes_subOuterFold (ns : List NodeId) (subs : List (ValueId × ValueId))
    (f : Function) :
    (ns.foldl (fun f n => subs.foldl (subStep n) f) f).nodes = f.nodes := by
  induction ns generalizing f with
  | nil => rfl
  | cons n t ih => rw [List.foldl_cons, ih, nodes_subFold]

theorem phiLen_applySubs (f : Function) (subs : List (ValueId × ValueId)) (m : NodeId) :
    phiLen (applySubs f subs) m = phiLen f m :=
  phiLen_subOuterFold f.nodes subs f m

theorem nodes_applySubs (f : Function) (subs : List (ValueId × ValueId)) :
    (applySubs f subs).nodes = f.nodes :=
  nodes_subOuterFold f.nodes subs f

theorem sum_map_le_nat (l : List NodeId) (g h : NodeId → Nat)
    (hle : ∀ a ∈ l, g a ≤ h a) : (l.map g).sum ≤ (l.map h).sum :=
  List.sum_le_sum hle

theorem sum_map_lt_nat (l : List NodeId) (g h : NodeId → Nat)
    (hle : ∀ a ∈ l, g a ≤ h a) (a0 : NodeId) (ha : a0 ∈ l) (hlt : g a0 < h a0) :
    (l.map g).sum < (l.map h).sum := by
  induction l with
  | nil => cases ha
  | cons b t ih =>
    simp only [List.map_cons, List.sum_cons]
    rcases List.mem_cons.mp ha with rfl | hmem
    · have h2 : (t.map g).sum ≤ (t.map h).sum :=
        sum_map_le_nat t g h (fun a hmem2 => hle a (List.mem_cons_of_mem _ hmem2))
      omega
    · have h1 : g b ≤ h b := hle b (List.mem_cons_self _ _)
      have h2 := ih (fun a hmem2 => hle a (List.mem_cons_of_mem _ hmem2)) hmem
      omega

/-- Members of the mark-index list of a node are valid phi indices. -/
theorem nodeMarkIdxs_lt (f : Function) (n : NodeId) (i : Nat)
    (h : i ∈ nodeMarkIdxs f n) : i < phiLen f n := by
  unfold nodeMarkIdxs at h
  rcases List.mem_map.mp h with ⟨⟨j, p⟩, hjp, rfl⟩
  have hmem := (List.mem_filter.mp hjp).1
  have := List.mk_mem_enum_iff_getElem?.mp hmem
  exact (List.getElem?_eq_some.mp this).1

/-- Members of `phis_to_remove` carry a non-empty index list for their
node. -/
theorem passMarks_mem (f : Function) (e : NodeId × List Nat) (h : e ∈ passMarks f) :
    e.1 ∈ f.nodes ∧ e.2 = nodeMarkIdxs f e.1 ∧ e.2 ≠ [] := by
  unfold passMarks at h
  have h1 := List.mem_filter.mp h
  rcases List.mem_map.mp h1.1 with ⟨n, hn, rfl⟩
  refine ⟨hn, rfl, ?_⟩
  have := h1.2
  simpa using this

/-- A pass that marks at least one phi strictly decreases the total phi
count: removals erase at least one valid index and substitutions do not
change phi counts. -/
theorem phiCount_prunePassApply_lt (f : Function) (h : passMarks f ≠ []) :
    phiCount (prunePassApply f) < phiCount f := by
  have hrevne : (passMarks f).reverse ≠ [] := by simpa using h
  rcases List.exists_cons_of_ne_nil hrevne with ⟨e, tl, hcons⟩
  have hemem : e ∈ passMarks f := by
    have : e ∈ (passMarks f).reverse := by rw [hcons]; exact List.mem_cons_self _ _
    exact List.mem_reverse.mp this
  obtain ⟨hnode, hidx, hne⟩ := passMarks_mem f e hemem
  -- the first removal step strictly shrinks node e.1
  have hstep : phiLen (removalStep f e) e.1 < phiLen f e.1 := by
    unfold removalStep
    rw [phiLen, blockOf_updateBlock_self]
    cases hb : f.blocks.lookup e.1 with
    | none =>
      exfalso
      apply hne
      rw [hidx]
      unfold nodeMarkIdxs
      simp [blockOf, hb, emptyBlock]
    | some b =>
      have hblockOf : blockOf f e.1 = b := by simp [blockOf, hb]
      simp only [Option.map_some', Option.getD_some]
      unfold removePhis
      have hlt : phiLen f e.1 = b.phi_instructions.length := by
        rw [phiLen, hblockOf]
      rcases List.exists_cons_of_ne_nil hne with ⟨i0, it, hi0⟩
      have hi0mem : i0 ∈ e.2 := by rw [hi0]; exact List.mem_cons_self _ _
      have hi0lt : i0 < b.phi_instructions.length := by
        rw [← hlt]
        exact nodeMarkIdxs_lt f e.1 i0 (hidx ▸ hi0mem)
      have := length_foldl_eraseIdx_lt e.2.reverse b.phi_instructions
        ⟨i0, List.mem_reverse.mpr hi0mem, hi0lt⟩
      rw [phiLen, hblockOf]
      exact this
  have hrest : ∀ m, phiLen (applyRemovals f (passMarks f)) m ≤ phiLen (removalStep f e) m := by
    intro m
    unfold applyRemovals
    rw [hcons, List.foldl_cons]
    exact phiLen_removalFold_le tl (removalStep f e) m
  have hle : ∀ m, phiLen (applyRemovals f (passMarks f)) m ≤ phiLen f m := by
    intro m
    exact le_trans (hrest m) (phiLen_removalStep_le f e m)
  have hstrict : phiLen (applyRemovals f (passMarks f)) e.1 < phiLen f e.1 :=
    lt_of_le_of_lt (hrest e.1) hstep
  have hnodes : (applyRemovals f (passMarks f)).nodes = f.nodes := by
    unfold applyRemovals
    exact nodes_removalFold _ f
  -- substitutions preserve counts
  unfold prunePassApply phiCount
  rw [nodes_applySubs, hnodes]
  have hsum : ∀ m ∈ f.nodes,
      (blockOf (applySubs (applyRemovals f (passMarks f)) (passSubs f)) m).phi_instructions.length
        ≤ (blockOf f m).phi_instructions.length := by
    intro m _
    have := phiLen_applySubs (applyRemovals f (passMarks f)) (passSubs f) m
    calc (blockOf (applySubs (applyRemovals f (passMarks f)) (passSubs f)) m).phi_instructions.length
        = phiLen (applyRemovals f (passMarks f)) m := this
      _ ≤ phiLen f m := hle m
  apply sum_map_lt_nat _ _ _ hsum e.1 hnode
  have := phiLen_applySubs (applyRemovals f (passMarks f)) (passSubs f) e.1
  calc (blockOf (applySubs (applyRemovals f (passMarks f)) (passSubs f)) e.1).phi_instructions.length
      = phiLen (applyRemovals f (passMarks f)) e.1 := this
    _ < phiLen f e.1 := hstrict

/-- With fuel exceeding the phi count, the pruning loop reaches a state
that marks nothing. -/
theorem pruneLoop_fixpoint : ∀ (fuel : Nat) (f : Function), phiCount f < fuel →
    passMarks (pruneLoop fuel f) = [] := by
  intro fuel
  induction fuel with
  | zero => intro f h; omega
  | succ fuel ih =>
    intro f h
    unfold pruneLoop
    by_cases hm : (passMarks f).isEmpty
    · simpa [hm] using List.isEmpty_iff.mp hm
    · simp only [hm, if_false]
      apply ih
      have hne : passMarks f ≠ [] := by
        intro hx; rw [hx] at hm; simp at hm
      have := phiCount_prunePassApply_lt f hne
      omega

/-! ### Reads of a block, and behaviour of substitution application -/

theorem valuesRead_mapReads_inner (i : Inner) (g : ValueId → ValueId) :
    (i.mapReads g).valuesRead = i.valuesRead.map g := by
  cases i <;> simp [Inner.mapReads, Inner.valuesRead]

theorem valuesRead_mapReads_terminator (t : Terminator) (g : ValueId → ValueId) :
    (t.mapReads g).valuesRead = t.valuesRead.map g := by
  cases t <;> simp [Terminator.mapReads, Terminator.valuesRead]

theorem valuesRead_replace_phi (p : Phi) (old new : ValueId) :
    (p.replaceValuesRead old new).valuesRead =
      p.valuesRead.map (fun v => if v = old then new else v) := by
  unfold Phi.replaceValuesRead Phi.valuesRead
  simp only [List.map_map]
  congr 1
  funext kv
  by_cases h : kv.2 = old <;> simp [h]

/-- Replacing reads never leaves a read of the source value behind when
the replacement differs from it, and never introduces a read of a value
that is neither already read nor the replacement. -/
theorem not_mem_map_subst (l : List ValueId) (old new v : ValueId)
    (h : v ≠ new) (h2 : v = old ∨ v ∉ l) :
    v ∉ l.map (fun x => if x = old then new else x) := by
  intro hmem
  rcases List.mem_map.mp hmem with ⟨x, hx, hxe⟩
  by_cases hxo : x = old
  · rw [if_pos hxo] at hxe
    exact h hxe.symm
  · rw [if_neg hxo] at hxe
    subst hxe
    rcases h2 with rfl | hnl
    · exact hxo rfl
    · exact hnl hx

theorem not_read_replace_phi (p : Phi) (old new v : ValueId) (hvn : v ≠ new)
    (h : v = old ∨ v ∉ p.valuesRead) :
    v ∉ (p.replaceValuesRead old new).valuesRead := by
  rw [valuesRead_replace_phi]
  exact not_mem_map_subst _ _ _ _ hvn h

theorem not_read_replace_inner (i : Inner) (old new v : ValueId) (hvn : v ≠ new)
    (h : v = old ∨ v ∉ i.valuesRead) :
    v ∉ (i.replaceValuesRead old new).valuesRead := by
  rw [Inner.replaceValuesRead, valuesRead_mapReads_inner]
  exact not_mem_map_subst _ _ _ _ hvn h

theorem not_read_replace_terminator (t : Terminator) (old new v : ValueId) (hvn : v ≠ new)
    (h : v = old ∨ v ∉ t.valuesRead) :
    v ∉ (t.replaceValuesRead old new).valuesRead := by
  rw [Terminator.replaceValuesRead, valuesRead_mapReads_terminator]
  exact not_mem_map_subst _ _ _ _ hvn h

/-- After replacing reads of `old` by `new` in a block, the block does
not read `v` whenever `v ≠ new` and either `v = old` or the block did not
read `v` before. -/
theorem readsValue_replace_false (b : BasicBlock) (old new v : ValueId)
    (hvn : v ≠ new) (h2 : v = old ∨ b.readsValue v = false) :
    (b.replaceValuesRead old new).readsValue v = false := by
  have hcomp : (v = old) ∨
      ((∀ p ∈ b.phi_instructions, v ∉ p.valuesRead) ∧
       (∀ i ∈ b.inner_instructions, v ∉ i.valuesRead) ∧
       (∀ t, b.terminator = some t → v ∉ t.valuesRead)) := by
    rcases h2 with rfl | hf
    · exact Or.inl rfl
    · right
      unfold BasicBlock.readsValue at hf
      simp only [Bool.or_eq_false_iff, List.any_eq_false, decide_eq_false_iff_not,
        decide_eq_true_eq] at hf
      refine ⟨hf.1.1, hf.1.2, ?_⟩
      intro t ht
      have := hf.2
      rw [ht] at this
      simpa using this
  unfold BasicBlock.readsValue BasicBlock.replaceValuesRead
  simp only [Bool.or_eq_false_iff, List.any_eq_false, decide_eq_false_iff_not,
    decide_eq_true_eq]
  refine ⟨⟨?_, ?_⟩, ?_⟩
  · intro p hp
    rcases List.mem_map.mp hp with ⟨p0, hp0, rfl⟩
    apply not_read_replace_phi p0 old new v hvn
    rcases hcomp with rfl | hc
    · exact Or.inl rfl
    · exact Or.inr (hc.1 p0 hp0)
  · intro i hi
    rcases List.mem_map.mp hi with ⟨i0, hi0, rfl⟩
    apply not_read_replace_inner i0 old new v hvn
    rcases hcomp with rfl | hc
    · exact Or.inl rfl
    · exact Or.inr (hc.2.1 i0 hi0)
  · cases ht : b.terminator with
    | none => simp
    | some t =>
      simp only [Option.map_some']
      have : v ∉ (t.replaceValuesRead old new).valuesRead := by
        apply not_read_replace_terminator t old new v hvn
        rcases hcomp with rfl | hc
        · exact Or.inl rfl
        · exact Or.inr (hc.2.2 t ht)
      simpa using this

/-! ### Membership in the recorded substitution map -/

theorem pair_mem_insertAssoc_self (l : List (ValueId × ValueId)) (k v : ValueId) :
    (k, v) ∈ insertAssoc l k v := by
  unfold insertAssoc
  by_cases h : l.any (fun p => p.1 = k) = true
  · rw [if_pos h]
    rw [List.any_eq_true] at h
    rcases h with ⟨a, ha, hak⟩
    have hak2 : a.1 = k := by simpa using hak
    refine List.mem_map.mpr ⟨a, ha, ?_⟩
    rw [if_pos hak2]
  · rw [if_neg h]
    exact List.mem_append_right _ (List.mem_singleton_self _)

theorem pair_mem_insertAssoc_of (l : List (ValueId × ValueId)) (k v j w : ValueId)
    (h : (k, v) ∈ l) (hcond : j ≠ k ∨ w = v) : (k, v) ∈ insertAssoc l j w := by
  unfold insertAssoc
  by_cases ha : l.any (fun p => p.1 = j) = true
  · rw [if_pos ha]
    refine List.mem_map.mpr ⟨(k, v), h, ?_⟩
    by_cases hk : k = j
    · subst hk
      rcases hcond with hne | rfl
      · exact absurd rfl hne
      · simp
    · simp [hk]
  · rw [if_neg ha]
    exact List.mem_append_left _ h

theorem mem_subRecordFold_preserve (ps : List Phi) (subs : List (ValueId × ValueId))
    (k v : ValueId) (h : (k, v) ∈ subs)
    (hps : ∀ q ∈ ps, q.dest = k → phiUniqueValue q = v) :
    (k, v) ∈ ps.foldl subRecordStep subs := by
  induction ps generalizing subs with
  | nil => exact h
  | cons q rest ih =>
    rw [List.foldl_cons]
    apply ih
    · unfold subRecordStep
      by_cases hq : (phiIsTrivial q && !(phiUniqueValue q == q.dest)) = true
      · rw [if_pos hq]
        apply pair_mem_insertAssoc_of _ _ _ _ _ h
        by_cases hd : q.dest = k
        · exact Or.inr (hps q (List.mem_cons_self _ _) hd)
        · exact Or.inl hd
      · rw [if_neg hq]
        exact h
    · intro q2 hq2 hd
      exact hps q2 (List.mem_cons_of_mem _ hq2) hd

theorem mem_subRecordFold_insert (ps : List Phi) (subs : List (ValueId × ValueId)) (p : Phi)
    (hp : p ∈ ps) (htriv : phiIsTrivial p = true) (hne : phiUniqueValue p ≠ p.dest)
    (hps : ∀ q ∈ ps, q.dest = p.dest → phiUniqueValue q = phiUniqueValue p) :
    (p.dest, phiUniqueValue p) ∈ ps.foldl subRecordStep subs := by
  induction ps generalizing subs with
  | nil => cases hp
  | cons q rest ih =>
    rw [List.foldl_cons]
    rcases List.mem_cons.mp hp with rfl | hmem
    · apply mem_subRecordFold_preserve
      · unfold subRecordStep
        rw [if_pos (by simp [htriv, hne])]
        exact pair_mem_insertAssoc_self _ _ _
      · intro q2 hq2 hd
        exact hps q2 (List.mem_cons_of_mem _ hq2) hd
    · exact ih _ hmem (fun q2 hq2 hd => hps q2 (List.mem_cons_of_mem _ hq2) hd)

theorem mem_passSubsFold_preserve (f : Function) (ns : List NodeId)
    (subs : List (ValueId × ValueId)) (k v : ValueId) (h : (k, v) ∈ subs)
    (hall : ∀ m ∈ ns, ∀ q ∈ (blockOf f m).phi_instructions, q.dest = k → phiUniqueValue q = v) :
    (k, v) ∈ ns.foldl
      (fun subs n => (blockOf f n).phi_instructions.foldl subRecordStep subs) subs := by
  induction ns generalizing subs with
  | nil => exact h
  | cons m rest ih =>
    rw [List.foldl_cons]
    apply ih
    · exact mem_subRecordFold_preserve _ _ _ _ h (hall m (List.mem_cons_self _ _))
    · intro m2 hm2
      exact hall m2 (List.mem_cons_of_mem _ hm2)

theorem mem_passSubsFold (f : Function) (ns : List NodeId)
    (subs : List (ValueId × ValueId)) (n : NodeId) (p : Phi)
    (hn : n ∈ ns) (hp : p ∈ (blockOf f n).phi_instructions)
    (htriv : phiIsTrivial p = true) (hne : phiUniqueValue p ≠ p.dest)
    (hall : ∀ m ∈ ns, ∀ q ∈ (blockOf f m).phi_instructions,
      q.dest = p.dest → phiUniqueValue q = phiUniqueValue p) :
    (p.dest, phiUniqueValue p) ∈ ns.foldl
      (fun subs n => (blockOf f n).phi_instructions.foldl subRecordStep subs) subs := by
  induction ns generalizing subs with
  | nil => cases hn
  | cons m rest ih =>
    rw [List.foldl_cons]
    rcases List.mem_cons.mp hn with rfl | hmem
    · apply mem_passSubsFold_preserve
      · exact mem_subRecordFold_insert _ _ _ hp htriv hne (hall n (List.mem_cons_self _ _))
      · intro m2 hm2
        exact hall m2 (List.mem_cons_of_mem _ hm2)
    · exact ih _ hmem (fun m2 hm2 => hall m2 (List.mem_cons_of_mem _ hm2))

/-! ### Effect of applying the recorded substitutions -/

theorem replaceReads_emptyBlock (old new : ValueId) :
    emptyBlock.replaceValuesRead old new = emptyBlock := rfl

theorem blockOf_subStep (n : NodeId) (f : Function) (s : ValueId × ValueId) (m : NodeId) :
    blockOf (subStep n f s) m =
      if m = n then (blockOf f m).replaceValuesRead s.1 s.2 else blockOf f m := by
  unfold subStep
  rw [blockOf_updateBlock]
  by_cases hm : m = n
  · subst hm
    rw [if_pos rfl, if_pos rfl]
    cases h : f.blocks.lookup m <;> simp [blockOf, h, replaceReads_emptyBlock]
  · rw [if_neg hm, if_neg hm]

theorem blockOf_subFold (subs : List (ValueId × ValueId)) (n : NodeId) (f : Function)
    (m : NodeId) :
    blockOf (subs.foldl (subStep n) f) m =
      if m = n then subs.foldl (fun b s => b.replaceValuesRead s.1 s.2) (blockOf f m)
      else blockOf f m := by
  induction subs generalizing f with
  | nil => by_cases hm : m = n <;> simp [hm]
  | cons s rest ih =>
    rw [List.foldl_cons, ih (subStep n f s)]
    by_cases hm : m = n
    · rw [if_pos hm, if_pos hm, blockOf_subStep, if_pos hm, List.foldl_cons]
    · rw [if_neg hm, if_neg hm, blockOf_subStep, if_neg hm]

theorem readsValue_subsFold_preserve (subs : List (ValueId × ValueId)) (b : BasicBlock)
    (old : ValueId) (hb : b.readsValue old = false) (hnt : ∀ q ∈ subs, q.2 ≠ old) :
    (subs.foldl (fun b s => b.replaceValuesRead s.1 s.2) b).readsValue old = false := by
  induction subs generalizing b with
  | nil => exact hb
  | cons s rest ih =>
    rw [List.foldl_cons]
    refine ih _ ?_ (fun q hq => hnt q (List.mem_cons_of_mem _ hq))
    exact readsValue_replace_false b s.1 s.2 old
      (Ne.symm (hnt s (List.mem_cons_self _ _))) (Or.inr hb)

theorem readsValue_subsFold_false (subs : List (ValueId × ValueId)) (b : BasicBlock)
    (old new : ValueId) (hmem : (old, new) ∈ subs) (hnt : ∀ q ∈ subs, q.2 ≠ old) :
    (subs.foldl (fun b s => b.replaceValuesRead s.1 s.2) b).readsValue old = false := by
  induction subs generalizing b with
  | nil => cases hmem
  | cons s rest ih =>
    rw [List.foldl_cons]
    rcases List.mem_cons.mp hmem with heq | hmem2
    · refine readsValue_subsFold_preserve rest _ old ?_
        (fun q hq => hnt q (List.mem_cons_of_mem _ hq))
      rw [← heq]
      exact readsValue_replace_false b old new old
        (by have := hnt s (List.mem_cons_self _ _); rw [← heq] at this; exact Ne.symm this)
        (Or.inl rfl)
    · exact ih _ hmem2 (fun q hq => hnt q (List.mem_cons_of_mem _ hq))

theorem noRead_subOuterFold_preserve (ns : List NodeId) (subs : List (ValueId × ValueId))
    (f : Function) (old : ValueId) (hnt : ∀ q ∈ subs, q.2 ≠ old) (m : NodeId)
    (hb : (blockOf f m).readsValue old = false) :
    (blockOf (ns.foldl (fun f n => subs.foldl (subStep n) f) f) m).readsValue old = false := by
  induction ns generalizing f with
  | nil => exact hb
  | cons n rest ih =>
    rw [List.foldl_cons]
    apply ih
    rw [blockOf_subFold]
    by_cases hm : m = n
    · rw [if_pos hm]
      exact readsValue_subsFold_preserve subs _ old hb hnt
    · rw [if_neg hm]
      exact hb

theorem noRead_subOuterFold (ns : List NodeId) (subs : List (ValueId × ValueId))
    (f : Function) (old new : ValueId) (hmem : (old, new) ∈ subs)
    (hnt : ∀ q ∈ subs, q.2 ≠ old) (m : NodeId) (hm : m ∈ ns) :
    (blockOf (ns.foldl (fun f n => subs.foldl (subStep n) f) f) m).readsValue old = false := by
  induction ns generalizing f with
  | nil => cases hm
  | cons n rest ih =>
    rw [List.foldl_cons]
    rcases List.mem_cons.mp hm with rfl | hmem2
    · apply noRead_subOuterFold_preserve rest subs _ old hnt m
      rw [blockOf_subFold, if_pos rfl]
      exact readsValue_subsFold_false subs _ old new hmem hnt
    · exact ih _ hmem2

/-! ### Characterisation of the dead-phi test -/

theorem deadPhiCondition_iff (f : Function) (n : NodeId) (i : Nat) (p : Phi) :
    deadPhiCondition f n i p = true ↔
      ∀ loc ∈ readLocations f p.dest, loc = InstructionLocation.mk n (.phi i) := by
  unfold deadPhiCondition
  rw [beq_iff_eq, List.length_eq_zero, List.filter_eq_nil_iff]
  constructor
  · intro h loc hloc
    have h2 := h loc hloc
    have h3 : (loc.node == n && loc.index == InstructionIndex.phi i) = true := by
      by_contra hq
      apply h2
      have hx : (loc.node == n && loc.index == InstructionIndex.phi i) = false := by
        revert hq
        cases loc.node == n && loc.index == InstructionIndex.phi i <;> simp
      simp [hx]
    obtain ⟨h4, h5⟩ := (Bool.and_eq_true _ _).mp h3
    rw [beq_iff_eq] at h4 h5
    cases loc
    simp_all
  · intro h loc hloc
    have := h loc hloc
    subst this
    simp

/-! ### Claims C1, C7 and C10 -/

/-- C1 (amended): during one pruning pass, a non-trivial phi is marked
for removal by the dead-phi rule exactly when every read location of its
dest is the phi's own location (a self-read of the very same phi);
consequently, at any fixpoint of the pass (a state that marks nothing),
every phi is non-trivial and its dest has a reader other than the phi
itself. -/
theorem C1_dead_phi_marking (f : Function) (n : NodeId) (i : Nat) (p : Phi)
    (htriv : phiIsTrivial p = false) :
    (phiMarked f n i p = true ↔
      ∀ loc ∈ readLocations f p.dest, loc = InstructionLocation.mk n (.phi i)) ∧
    (passMarks f = [] → ∀ m ∈ f.nodes, ∀ j q,
      (blockOf f m).phi_instructions[j]? = some q →
      phiIsTrivial q = false ∧
        ¬∀ loc ∈ readLocations f q.dest, loc = InstructionLocation.mk m (.phi j)) := by
  constructor
  · have hm : phiMarked f n i p = deadPhiCondition f n i p := by
      simp [phiMarked, htriv]
    rw [hm]
    exact deadPhiCondition_iff f n i p
  · intro hfix m hm j q hq
    have hidx : nodeMarkIdxs f m = [] := by
      by_contra hne
      have hmem : (m, nodeMarkIdxs f m) ∈ passMarks f := by
        unfold passMarks
        refine List.mem_filter.mpr ⟨List.mem_map.mpr ⟨m, hm, rfl⟩, ?_⟩
        simpa using hne
      rw [hfix] at hmem
      cases hmem
    have hmark : phiMarked f m j q = false := by
      by_contra h
      have h2 : phiMarked f m j q = true := by
        revert h
        cases phiMarked f m j q <;> simp
      have h3 : j ∈ nodeMarkIdxs f m := by
        unfold nodeMarkIdxs
        refine List.mem_map.mpr ⟨(j, q), ?_, rfl⟩
        exact List.mem_filter.mpr ⟨List.mk_mem_enum_iff_getElem?.mpr hq, h2⟩
      rw [hidx] at h3
      cases h3
    have htq : phiIsTrivial q = false := by
      by_contra h
      have h2 : phiIsTrivial q = true := by
        revert h
        cases phiIsTrivial q <;> simp
      have : phiMarked f m j q = true := by simp [phiMarked, h2]
      rw [hmark] at this
      cases this
    refine ⟨htq, ?_⟩
    intro hall
    have h2 : deadPhiCondition f m j q = true := (deadPhiCondition_iff f m j q).mpr hall
    have h3 : phiMarked f m j q = true := by simp [phiMarked, htq, h2]
    rw [hmark] at h3
    cases h3

/-- Witness for C1 at a concrete function: the hypotheses hold at the
join block of `exDeadSelf` and the theorem applies. -/
theorem C1_dead_phi_marking_witness :
    phiIsTrivial (Phi.mk 10 [(1, 20), (2, 21)]) = false ∧
    ((phiMarked exDeadSelf 3 0 (Phi.mk 10 [(1, 20), (2, 21)]) = true ↔
      ∀ loc ∈ readLocations exDeadSelf 10, loc = InstructionLocation.mk 3 (.phi 0)) ∧
    (passMarks exDeadSelf = [] → ∀ m ∈ exDeadSelf.nodes, ∀ j q,
      (blockOf exDeadSelf m).phi_instructions[j]? = some q →
      phiIsTrivial q = false ∧
        ¬∀ loc ∈ readLocations exDeadSelf q.dest,
          loc = InstructionLocation.mk m (.phi j))) :=
  ⟨by decide, C1_dead_phi_marking exDeadSelf 3 0 (Phi.mk 10 [(1, 20), (2, 21)]) (by decide)⟩

/-- Counterexample to C1 as stated: in `exDeadSelf` the first phi of
node 3 (dest 10) has exactly one reader, the second phi of the same
block, so by the claim it should be marked for removal; the pass does not
mark it (its mark-index list is empty and the pass is already at a
fixpoint), and after pruning it survives with zero non-phi readers
outside its own block. -/
theorem C1_dead_phi_counterexample :
    phiIsTrivial (Phi.mk 10 [(1, 20), (2, 21)]) = false ∧
    (blockOf exDeadSelf 3).phi_instructions[0]? = some (Phi.mk 10 [(1, 20), (2, 21)]) ∧
    specDeadPhiReaders exDeadSelf 3 (Phi.mk 10 [(1, 20), (2, 21)]) = true ∧
    phiMarked exDeadSelf 3 0 (Phi.mk 10 [(1, 20), (2, 21)]) = false ∧
    nodeMarkIdxs exDeadSelf 3 = [] ∧
    (blockOf (pruneLoop (phiCount exDeadSelf + 1) exDeadSelf) 3).phi_instructions[0]?
      = some (Phi.mk 10 [(1, 20), (2, 21)]) ∧
    specDeadPhiReaders (pruneLoop (phiCount exDeadSelf + 1) exDeadSelf) 3
      (Phi.mk 10 [(1, 20), (2, 21)]) = true := by
  decide

/-- C7: during one pruning pass, a phi whose incoming values form a set
of exactly one value `u` is marked for removal; when `u` differs from the
dest, the substitution `dest ↦ u` is recorded, and the pass afterwards
applies the substitutions to every read of every block, so that (when no
recorded substitution reintroduces `dest`) no instruction of the
function reads `dest` after the pass.  The `hdest` hypothesis reflects
the SSA single-writer discipline: any phi sharing this dest records the
same value. -/
theorem C7_trivial_phi_collapse (f : Function) (n : NodeId) (i : Nat) (p : Phi)
    (hn : n ∈ f.nodes)
    (hp : (blockOf f n).phi_instructions[i]? = some p)
    (htriv : phiIsTrivial p = true)
    (hdest : ∀ m ∈ f.nodes, ∀ q ∈ (blockOf f m).phi_instructions,
        q.dest = p.dest → phiUniqueValue q = phiUniqueValue p) :
    i ∈ nodeMarkIdxs f n ∧
    (phiUniqueValue p ≠ p.dest → (p.dest, phiUniqueValue p) ∈ passSubs f) ∧
    (phiUniqueValue p ≠ p.dest → (∀ q ∈ passSubs f, q.2 ≠ p.dest) →
      ∀ m ∈ f.nodes, (blockOf (prunePassApply f) m).readsValue p.dest = false) := by
  have hpmem : p ∈ (blockOf f n).phi_instructions := by
    have := List.getElem?_eq_some.mp hp
    rcases this with ⟨hlt, hget⟩
    rw [← hget]
    exact List.getElem_mem hlt
  refine ⟨?_, ?_, ?_⟩
  · unfold nodeMarkIdxs
    refine List.mem_map.mpr ⟨(i, p), ?_, rfl⟩
    refine List.mem_filter.mpr ⟨List.mk_mem_enum_iff_getElem?.mpr hp, ?_⟩
    simp [phiMarked, htriv]
  · intro hne
    unfold passSubs
    exact mem_passSubsFold f f.nodes [] n p hn hpmem htriv hne hdest
  · intro hne hnt m hm
    have hsub : (p.dest, phiUniqueValue p) ∈ passSubs f := by
      unfold passSubs
      exact mem_passSubsFold f f.nodes [] n p hn hpmem htriv hne hdest
    unfold prunePassApply applySubs
    have hnodes : (applyRemovals f (passMarks f)).nodes = f.nodes := by
      unfold applyRemovals
      exact nodes_removalFold _ f
    rw [hnodes]
    exact noRead_subOuterFold f.nodes (passSubs f) _ p.dest (phiUniqueValue p)
      hsub hnt m hm

/-- Witness for C7 at a concrete function: the trivial phi of
`exTrivial` is marked, its substitution `10 ↦ 20` is recorded, and after
the pass nothing reads value 10. -/
theorem C7_trivial_phi_collapse_witness :
    (3 ∈ exTrivial.nodes) ∧
    ((blockOf exTrivial 3).phi_instructions[0]? = some (Phi.mk 10 [(1, 20), (2, 20)])) ∧
    phiIsTrivial (Phi.mk 10 [(1, 20), (2, 20)]) = true ∧
    phiUniqueValue (Phi.mk 10 [(1, 20), (2, 20)]) ≠ (Phi.mk 10 [(1, 20), (2, 20)]).dest ∧
    (∀ q ∈ passSubs exTrivial, q.2 ≠ (Phi.mk 10 [(1, 20), (2, 20)]).dest) ∧
    0 ∈ nodeMarkIdxs exTrivial 3 ∧
    ((Phi.mk 10 [(1, 20), (2, 20)]).dest,
      phiUniqueValue (Phi.mk 10 [(1, 20), (2, 20)])) ∈ passSubs exTrivial ∧
    (∀ m ∈ exTrivial.nodes,
      (blockOf (prunePassApply exTrivial) m).readsValue
        (Phi.mk 10 [(1, 20), (2, 20)]).dest = false) := by
  have h := C7_trivial_phi_collapse exTrivial 3 0 (Phi.mk 10 [(1, 20), (2, 20)])
    (by decide) (by decide) (by decide) (by decide)
  exact ⟨by decide, by decide, by decide, by decide, by decide,
    h.1, h.2.1 (by decide), h.2.2 (by decide) (by decide)⟩

/-- C10: the iterative pruning loop terminates: a pass that marks at
least one phi strictly decreases the total phi count (no pass inserts a
phi), so with fuel exceeding the initial phi count the loop reaches a
pass that marks nothing. -/
theorem C10_pruning_terminates (f : Function) :
    (passMarks f ≠ [] → phiCount (prunePassApply f) < phiCount f) ∧
    passMarks (pruneLoop (phiCount f + 1) f) = [] :=
  ⟨fun h => phiCount_prunePassApply_lt f h,
   pruneLoop_fixpoint (phiCount f + 1) f (Nat.lt_succ_self _)⟩

/-- Witness for C10 at a concrete function whose first pass marks a
phi. -/
theorem C10_pruning_terminates_witness :
    passMarks exTrivial ≠ [] ∧
    phiCount (prunePassApply exTrivial) < phiCount exTrivial ∧
    passMarks (pruneLoop (phiCount exTrivial + 1) exTrivial) = [] :=
  ⟨by decide, (C10_pruning_terminates exTrivial).1 (by decide),
   (C10_pruning_terminates exTrivial).2⟩

/-- C8: SSA construction fails with `NoEntry` whenever the function
lacks an entry; every error it returns is a wrapped graph error; and
when an entry exists and the three graph analyses succeed, construction
succeeds. -/
theorem C8_construct_error_model (o1 : ImmDomOracle) (o2 : FrontierOracle)
    (o3 : DomTreeOracle) (fuel : Nat) (f : Function) :
    (f.entry = none → construct o1 o2 o3 fuel f = .error (.graph .noEntry)) ∧
    (∀ e, construct o1 o2 o3 fuel f = .error e → ∃ g, e = Error.graph g) ∧
    (∀ entry idoms df dt, f.entry = some entry → o1 f entry = .ok idoms →
      o2 f entry idoms = .ok df →
      o3 (phiInsertion fuel f (df.filter (fun p => !p.2.isEmpty))) idoms = .ok dt →
      ∃ g, construct o1 o2 o3 fuel f = .ok g) := by
  refine ⟨?_, ?_, ?_⟩
  · intro h
    unfold construct
    rw [h]
  · intro e _
    cases e with
    | graph g => exact ⟨g, rfl⟩
  · intro entry idoms df dt h1 h2 h3 h4
    unfold construct
    simp only [h1, h2, h3, h4]
    exact ⟨_, rfl⟩

/-! ### Copy elision leaves no moves (C6) -/

theorem mapReads_isMove (i : Inner) (g : ValueId → ValueId) :
    (i.mapReads g).isMove = i.isMove := by
  cases i <;> rfl

theorem mapReads_comp (i : Inner) (g1 g2 : ValueId → ValueId) :
    (i.mapReads g1).mapReads g2 = i.mapReads (fun v => g2 (g1 v)) := by
  cases i <;> simp [Inner.mapReads]

theorem mapReads_id (i : Inner) : i.mapReads (fun v => v) = i := by
  cases i <;> simp [Inner.mapReads]

theorem lookup_map_value (l : List (NodeId × BasicBlock)) (g : BasicBlock → BasicBlock)
    (m : NodeId) :
    (l.map (fun p => (p.1, g p.2))).lookup m = (l.lookup m).map g := by
  induction l with
  | nil => simp [List.lookup]
  | cons p t ih =>
    obtain ⟨k, v⟩ := p
    by_cases hm : m = k
    · subst hm
      simp [List.lookup]
    · have hbeq : (m == k) = false := beq_eq_false_iff_ne.mpr hm
      simp [List.lookup, hbeq, ih]

theorem blockOf_replaceReadsEverywhere (f : Function) (old new : ValueId) (m : NodeId) :
    blockOf (replaceReadsEverywhere f old new) m
      = (blockOf f m).replaceValuesRead old new := by
  unfold blockOf replaceReadsEverywhere
  rw [lookup_map_value f.blocks (fun b => b.replaceValuesRead old new) m]
  cases h : f.blocks.lookup m <;> simp [h, replaceReads_emptyBlock]

theorem blockOf_removeInnerAt (f : Function) (n : NodeId) (i : Nat) (m : NodeId) :
    blockOf (removeInnerAt f n i) m =
      if m = n then
        { blockOf f m with
            inner_instructions := (blockOf f m).inner_instructions.eraseIdx i }
      else blockOf f m := by
  unfold removeInnerAt
  rw [blockOf_updateBlock]
  by_cases hm : m = n
  · subst hm
    rw [if_pos rfl, if_pos rfl]
    cases h : f.blocks.lookup m <;> simp [blockOf, h, emptyBlock]
  · rw [if_neg hm, if_neg hm]

theorem keys_updateBlock (f : Function) (n : NodeId) (g : BasicBlock → BasicBlock) :
    (updateBlock f n g).blocks.map Prod.fst = f.blocks.map Prod.fst := by
  unfold updateBlock
  simp only [List.map_map]
  apply List.map_congr_left
  intro p _
  by_cases h : p.1 = n <;> simp [h]

theorem keys_replaceReadsEverywhere (f : Function) (old new : ValueId) :
    (replaceReadsEverywhere f old new).blocks.map Prod.fst = f.blocks.map Prod.fst := by
  unfold replaceReadsEverywhere
  simp only [List.map_map]
  apply List.map_congr_left
  intro p _
  rfl

theorem elideStep_of_not_move (f : Function) (node : NodeId) (k : Nat) (a : Inner)
    (h : a.isMove = false) : elideStep f node k a = f := by
  cases a <;> first | rfl | simp [Inner.isMove] at h

theorem isMove_exists (a : Inner) (h : a.isMove = true) : ∃ d s, a = .move d s := by
  cases a with
  | move d s => exact ⟨d, s, rfl⟩
  | loadConstant d c => simp [Inner.isMove] at h
  | binary d l r => simp [Inner.isMove] at h
  | unary d v => simp [Inner.isMove] at h
  | call d fn args => simp [Inner.isMove] at h

theorem keys_elideStep (f : Function) (node : NodeId) (k : Nat) (a : Inner) :
    (elideStep f node k a).blocks.map Prod.fst = f.blocks.map Prod.fst := by
  cases a <;>
    simp [elideStep, removeInnerAt, keys_updateBlock, keys_replaceReadsEverywhere]

theorem copyElisionBlock_append (g : Function) (node : NodeId) (s : List Inner) (a : Inner) :
    copyElisionBlock g node (s ++ [a])
      = copyElisionBlock (elideStep g node s.length a) node s := by
  unfold copyElisionBlock
  have h : (s ++ [a]).enum.reverse = (s.length, a) :: s.enum.reverse := by
    rw [List.enum_append, List.reverse_append]
    rfl
  rw [h, List.foldl_cons]

theorem keys_copyElisionBlock (s : List Inner) (node : NodeId) :
    ∀ g : Function,
      (copyElisionBlock g node s).blocks.map Prod.fst = g.blocks.map Prod.fst := by
  induction s using List.reverseRecOn with
  | nil => intro g; rfl
  | append_singleton s a ih =>
    intro g
    rw [copyElisionBlock_append, ih, keys_elideStep]

theorem eraseIdx_append_len (A : List Inner) (x : Inner) (B : List Inner) :
    (A ++ x :: B).eraseIdx A.length = A ++ B := by
  induction A with
  | nil => rfl
  | cons a t ih => simp [List.eraseIdx, ih]

theorem replace_inners (b : BasicBlock) (old new : ValueId) :
    (b.replaceValuesRead old new).inner_instructions
      = b.inner_instructions.map (fun i => i.replaceValuesRead old new) := rfl

theorem applyRepls_inners_exists (l : List (ValueId × ValueId)) (b : BasicBlock) :
    ∃ τ, (applyRepls l b).inner_instructions
      = b.inner_instructions.map (Inner.mapReads τ) := by
  induction l generalizing b with
  | nil =>
    refine ⟨fun v => v, ?_⟩
    rw [show applyRepls [] b = b from rfl]
    symm
    calc b.inner_instructions.map (Inner.mapReads (fun v => v))
        = b.inner_instructions.map (fun i => i) :=
          List.map_congr_left (fun i _ => mapReads_id i)
      _ = b.inner_instructions := List.map_id _
  | cons s rest ih =>
    rcases ih (b.replaceValuesRead s.1 s.2) with ⟨τ, hτ⟩
    refine ⟨fun v => τ (if v = s.1 then s.2 else v), ?_⟩
    rw [show applyRepls (s :: rest) b = applyRepls rest (b.replaceValuesRead s.1 s.2) from rfl]
    rw [hτ, replace_inners, List.map_map]
    apply List.map_congr_left
    intro i _
    show (i.replaceValuesRead s.1 s.2).mapReads τ = _
    rw [Inner.replaceValuesRead, mapReads_comp]

/-- The per-block pass: given that the current block is the snapshot
with a read-mapping applied followed by a move-free tail, the pass
leaves the block move-free and touches other blocks only through a list
of read-replacements. -/
theorem copyElisionBlock_noMoves :
    ∀ (s : List Inner) (g : Function) (node : NodeId) (σ : ValueId → ValueId)
      (t : List Inner),
    (blockOf g node).inner_instructions = s.map (Inner.mapReads σ) ++ t →
    (∀ i ∈ t, i.isMove = false) →
    (∃ l, ∀ m, m ≠ node →
      blockOf (copyElisionBlock g node s) m = applyRepls l (blockOf g m)) ∧
    (∀ i ∈ (blockOf (copyElisionBlock g node s) node).inner_instructions,
      i.isMove = false) := by
  intro s
  induction s using List.reverseRecOn with
  | nil =>
    intro g node σ t hb ht
    refine ⟨⟨[], fun m _ => rfl⟩, ?_⟩
    intro i hi
    rw [show copyElisionBlock g node [] = g from rfl] at hi
    rw [hb] at hi
    exact ht i (by simpa using hi)
  | append_singleton s a ih =>
    intro g node σ t hb ht
    rw [copyElisionBlock_append]
    by_cases hmv : a.isMove = true
    · obtain ⟨d, src, rfl⟩ := isMove_exists a hmv
      have hstep : elideStep g node s.length (Inner.move d src)
          = removeInnerAt (replaceReadsEverywhere g d src) node s.length := rfl
      rw [hstep]
      -- the block after replacement and removal
      have hb1 : (blockOf (replaceReadsEverywhere g d src) node).inner_instructions
          = (s.map (Inner.mapReads σ)).map (fun i => i.replaceValuesRead d src)
            ++ ((Inner.move d src).mapReads σ).replaceValuesRead d src
            :: t.map (fun i => i.replaceValuesRead d src) := by
        rw [blockOf_replaceReadsEverywhere, replace_inners, hb]
        simp
      have hlen : ((s.map (Inner.mapReads σ)).map
          (fun i => i.replaceValuesRead d src)).length = s.length := by simp
      have hb2 : (blockOf (removeInnerAt (replaceReadsEverywhere g d src) node s.length)
            node).inner_instructions
          = (s.map (Inner.mapReads σ)).map (fun i => i.replaceValuesRead d src)
            ++ t.map (fun i => i.replaceValuesRead d src) := by
        rw [blockOf_removeInnerAt, if_pos rfl]
        simp only [hb1]
        rw [← hlen]
        exact eraseIdx_append_len _ _ _
      have hb3 : (blockOf (removeInnerAt (replaceReadsEverywhere g d src) node s.length)
            node).inner_instructions
          = s.map (Inner.mapReads (fun v => if σ v = d then src else σ v))
            ++ t.map (fun i => i.replaceValuesRead d src) := by
        rw [hb2, List.map_map]
        congr 1
        apply List.map_congr_left
        intro i _
        show (i.mapReads σ).replaceValuesRead d src = _
        rw [Inner.replaceValuesRead, mapReads_comp]
      have ht3 : ∀ i ∈ t.map (fun i => i.replaceValuesRead d src), i.isMove = false := by
        intro i hi
        rcases List.mem_map.mp hi with ⟨i0, hi0, rfl⟩
        rw [Inner.replaceValuesRead, mapReads_isMove]
        exact ht i0 hi0
      rcases ih (removeInnerAt (replaceReadsEverywhere g d src) node s.length) node
        (fun v => if σ v = d then src else σ v)
        (t.map (fun i => i.replaceValuesRead d src)) hb3 ht3 with ⟨⟨l, hl⟩, hnm⟩
      refine ⟨⟨(d, src) :: l, ?_⟩, hnm⟩
      intro m hm
      rw [hl m hm]
      rw [show applyRepls ((d, src) :: l) (blockOf g m)
          = applyRepls l ((blockOf g m).replaceValuesRead d src) from rfl]
      congr 1
      rw [blockOf_removeInnerAt, if_neg hm, blockOf_replaceReadsEverywhere]
    · have hmv2 : a.isMove = false := by
        revert hmv
        cases a.isMove <;> simp
      rw [elideStep_of_not_move _ _ _ _ hmv2]
      apply ih g node σ (a.mapReads σ :: t)
      · rw [hb]
        simp
      · intro i hi
        rcases List.mem_cons.mp hi with rfl | hmem
        · rw [mapReads_isMove]
          exact hmv2
        · exact ht i hmem

theorem lookup_of_nodupKeys (l : List (NodeId × BasicBlock))
    (hnd : (l.map Prod.fst).Nodup) (n : NodeId) (b : BasicBlock) (h : (n, b) ∈ l) :
    l.lookup n = some b := by
  induction l with
  | nil => cases h
  | cons p t ih =>
    obtain ⟨k, v⟩ := p
    rw [List.map_cons, List.nodup_cons] at hnd
    rcases List.mem_cons.mp h with heq | hmem
    · injection heq with h1 h2
      subst h1
      subst h2
      simp [List.lookup]
    · have hk : k ≠ n := by
        intro hkn
        subst hkn
        exact hnd.1 (List.mem_map.mpr ⟨(k, b), hmem, rfl⟩)
      have hbeq : (n == k) = false := beq_eq_false_iff_ne.mpr (Ne.symm hk)
      simpa [List.lookup, hbeq] using ih hnd.2 hmem

/-- The outer fold of copy elision: processed nodes stay move-free and
pending snapshot entries stay read-mapped images of their snapshots. -/
theorem copyElisionFold_noMoves :
    ∀ (es : List (NodeId × BasicBlock)) (g : Function)
      (hnd : (es.map Prod.fst).Nodup)
      (hmapped : ∀ nb ∈ es, ∃ σ, (blockOf g nb.1).inner_instructions
          = nb.2.inner_instructions.map (Inner.mapReads σ))
      (P : List NodeId)
      (hP : ∀ m ∈ P, ∀ i ∈ (blockOf g m).inner_instructions, i.isMove = false)
      (hPd : ∀ m ∈ P, m ∉ es.map Prod.fst),
    ∀ m, (m ∈ P ∨ m ∈ es.map Prod.fst) →
      ∀ i ∈ (blockOf
          (es.foldl (fun acc nb => copyElisionBlock acc nb.1 nb.2.inner_instructions) g)
          m).inner_instructions, i.isMove = false := by
  intro es
  induction es with
  | nil =>
    intro g hnd hmapped P hP hPd m hm i hi
    rcases hm with hm | hm
    · exact hP m hm i hi
    · cases hm
  | cons nb rest ih =>
    intro g hnd hmapped P hP hPd m hm i hi
    obtain ⟨n, b⟩ := nb
    rcases hmapped (n, b) (List.mem_cons_self _ _) with ⟨σ, hσ⟩
    have hb0 : (blockOf g n).inner_instructions
        = b.inner_instructions.map (Inner.mapReads σ) ++ [] := by
      rw [hσ]; simp
    rcases copyElisionBlock_noMoves b.inner_instructions g n σ [] hb0 (by intro i hi; cases hi)
      with ⟨⟨l, hl⟩, hnm⟩
    rw [List.map_cons, List.nodup_cons] at hnd
    have hndrest : (rest.map Prod.fst).Nodup := hnd.2
    have hnnotin : n ∉ rest.map Prod.fst := hnd.1
    have hmapped2 : ∀ nb2 ∈ rest, ∃ σ2,
        (blockOf (copyElisionBlock g n b.inner_instructions) nb2.1).inner_instructions
          = nb2.2.inner_instructions.map (Inner.mapReads σ2) := by
      intro nb2 hnb2
      have hne : nb2.1 ≠ n := by
        intro he
        exact hnnotin (he ▸ List.mem_map.mpr ⟨nb2, hnb2, rfl⟩)
      rcases hmapped nb2 (List.mem_cons_of_mem _ hnb2) with ⟨σ0, hσ0⟩
      rcases applyRepls_inners_exists l (blockOf g nb2.1) with ⟨τ, hτ⟩
      refine ⟨fun v => τ (σ0 v), ?_⟩
      rw [hl nb2.1 hne, hτ, hσ0, List.map_map]
      apply List.map_congr_left
      intro i0 _
      exact mapReads_comp i0 σ0 τ
    have hP2 : ∀ m2 ∈ n :: P,
        ∀ i2 ∈ (blockOf (copyElisionBlock g n b.inner_instructions) m2).inner_instructions,
          i2.isMove = false := by
      intro m2 hm2 i2 hi2
      rcases List.mem_cons.mp hm2 with rfl | hm2p
      · exact hnm i2 hi2
      · have hne : m2 ≠ n := by
          intro he
          exact hPd m2 hm2p (by rw [he, List.map_cons]; exact List.mem_cons_self _ _)
        rcases applyRepls_inners_exists l (blockOf g m2) with ⟨τ, hτ⟩
        rw [hl m2 hne, hτ] at hi2
        rcases List.mem_map.mp hi2 with ⟨i0, hi0, rfl⟩
        rw [mapReads_isMove]
        exact hP m2 hm2p i0 hi0
    have hPd2 : ∀ m2 ∈ n :: P, m2 ∉ rest.map Prod.fst := by
      intro m2 hm2
      rcases List.mem_cons.mp hm2 with rfl | hm2p
      · exact hnnotin
      · intro hc
        exact hPd m2 hm2p (List.mem_cons_of_mem _ hc)
    have hm2 : m ∈ n :: P ∨ m ∈ rest.map Prod.fst := by
      rcases hm with hmp | hmk
      · exact Or.inl (List.mem_cons_of_mem _ hmp)
      · rw [List.map_cons] at hmk
        rcases List.mem_cons.mp hmk with rfl | hmk2
        · exact Or.inl (List.mem_cons_self _ _)
        · exact Or.inr hmk2
    exact ih (copyElisionBlock g n b.inner_instructions) hndrest hmapped2
      (n :: P) hP2 hPd2 m hm2 i (by simpa using hi)

theorem keys_copyElisionFold (es : List (NodeId × BasicBlock)) :
    ∀ g : Function,
      ((es.foldl (fun acc nb => copyElisionBlock acc nb.1 nb.2.inner_instructions)
          g).blocks.map Prod.fst) = g.blocks.map Prod.fst := by
  induction es with
  | nil => intro g; rfl
  | cons nb rest ih =>
    intro g
    rw [List.foldl_cons, ih, keys_copyElisionBlock]

theorem keys_copyElision (f : Function) :
    (copyElision f).blocks.map Prod.fst = f.blocks.map Prod.fst :=
  keys_copyElisionFold f.blocks f

/-- C6: after copy elision, which processes each block's snapshot of
inner instructions in reverse order, replacing the reads of each move's
dest and deleting the move, no Move instruction remains anywhere in the
function (for a function whose block map has distinct keys, as a hash
map does). -/
theorem C6_copy_elision_no_moves (f : Function)
    (hnd : (f.blocks.map Prod.fst).Nodup) :
    noMoves (copyElision f) = true := by
  have hkeys := keys_copyElision f
  have hall := copyElisionFold_noMoves f.blocks f hnd
    (fun nb hnb => ⟨fun v => v, by
      have hlook := lookup_of_nodupKeys f.blocks hnd nb.1 nb.2 (by simpa using hnb)
      have hb : blockOf f nb.1 = nb.2 := by
        unfold blockOf
        rw [hlook]
        rfl
      rw [hb]
      symm
      calc nb.2.inner_instructions.map (Inner.mapReads (fun v => v))
          = nb.2.inner_instructions.map (fun i => i) :=
            List.map_congr_left (fun i _ => mapReads_id i)
        _ = nb.2.inner_instructions := List.map_id _⟩)
    [] (by intro m hm; cases hm) (by intro m hm; cases hm)
  unfold noMoves
  rw [List.all_eq_true]
  intro nb hnb
  rw [List.all_eq_true]
  intro i hi
  have hmem : nb.1 ∈ f.blocks.map Prod.fst := by
    rw [← hkeys]
    exact List.mem_map.mpr ⟨nb, hnb, rfl⟩
  have hndf : ((copyElision f).blocks.map Prod.fst).Nodup := by
    rw [hkeys]; exact hnd
  have hlook : (copyElision f).blocks.lookup nb.1 = some nb.2 :=
    lookup_of_nodupKeys _ hndf nb.1 nb.2 (by simpa using hnb)
  have hbof : blockOf (copyElision f) nb.1 = nb.2 := by
    unfold blockOf
    rw [hlook]
    rfl
  have := hall nb.1 (Or.inr hmem) i (by
    show i ∈ (blockOf (copyElision f) nb.1).inner_instructions
    rw [hbof]
    exact hi)
  simp [this]

/-! ### Phi incoming-value domains (C5) -/

theorem sameMembers_iff (l1 l2 : List NodeId) :
    sameMembers l1 l2 = true ↔ ∀ x, x ∈ l1 ↔ x ∈ l2 := by
  unfold sameMembers
  rw [Bool.and_eq_true, List.all_eq_true, List.all_eq_true]
  constructor
  · rintro ⟨h1, h2⟩ x
    constructor
    · intro hx
      simpa using h1 x hx
    · intro hx
      simpa using h2 x hx
  · intro h
    constructor
    · intro x hx
      simpa using (h x).mp hx
    · intro x hx
      simpa using (h x).mpr hx

theorem phiDomainsOk_iff (f : Function) : phiDomainsOk f = true ↔ phiDomainsP f := by
  unfold phiDomainsOk phiDomainsP
  rw [List.all_eq_true]
  constructor
  · intro h n hn p hp x
    have h2 := h n hn
    rw [List.all_eq_true] at h2
    exact (sameMembers_iff _ _).mp (h2 p hp) x
  · intro h n hn
    rw [List.all_eq_true]
    intro p hp
    exact (sameMembers_iff _ _).mpr (h n hn p hp)

/-- Generic preservation: a transformation that keeps nodes and edges
and gives every phi either the key list of an old phi of the same block
or exactly the predecessor set preserves the domain invariant. -/
theorem phiDomainsP_step (f f2 : Function)
    (hn : f2.nodes = f.nodes) (he : f2.edges = f.edges)
    (hb : ∀ n, ∀ p2 ∈ (blockOf f2 n).phi_instructions,
      (∃ p ∈ (blockOf f n).phi_instructions,
        p2.incoming_values.map Prod.fst = p.incoming_values.map Prod.fst) ∨
      (∀ x, x ∈ p2.incoming_values.map Prod.fst ↔ x ∈ predecessors f n))
    (h : phiDomainsP f) : phiDomainsP f2 := by
  intro n hn2 p2 hp2 x
  have hpred : predecessors f2 n = predecessors f n := by
    unfold predecessors
    rw [he]
  rw [hpred]
  rcases hb n p2 hp2 with ⟨p, hp, hkeys⟩ | hiff
  · rw [hkeys]
    exact h n (hn ▸ hn2) p hp x
  · exact hiff x

/-- Functions with the same blocks, nodes and edges satisfy the
invariant together. -/
theorem phiDomainsP_congr (f f2 : Function) (hbk : f2.blocks = f.blocks)
    (hn : f2.nodes = f.nodes) (he : f2.edges = f.edges) (h : phiDomainsP f) :
    phiDomainsP f2 := by
  apply phiDomainsP_step f f2 hn he _ h
  intro n p2 hp2
  left
  refine ⟨p2, ?_, rfl⟩
  have : blockOf f2 n = blockOf f n := by
    unfold blockOf
    rw [hbk]
  rw [← this]
  exact hp2

theorem phiDomainsP_updateBlock (f : Function) (n0 : NodeId) (g : BasicBlock → BasicBlock)
    (hg : ∀ b, ∀ p2 ∈ (g b).phi_instructions, ∃ p ∈ b.phi_instructions,
      p2.incoming_values.map Prod.fst = p.incoming_values.map Prod.fst)
    (h : phiDomainsP f) : phiDomainsP (updateBlock f n0 g) := by
  apply phiDomainsP_step f (updateBlock f n0 g) rfl rfl _ h
  intro n p2 hp2
  left
  rw [blockOf_updateBlock] at hp2
  by_cases hn : n = n0
  · subst hn
    rw [if_pos rfl] at hp2
    cases hl : f.blocks.lookup n with
    | none =>
      rw [hl] at hp2
      simp [emptyBlock] at hp2
    | some b =>
      rw [hl] at hp2
      simp only [Option.map_some', Option.getD_some] at hp2
      rcases hg b p2 hp2 with ⟨p, hp, hk⟩
      refine ⟨p, ?_, hk⟩
      unfold blockOf
      rw [hl]
      exact hp
  · rw [if_neg hn] at hp2
    exact ⟨p2, hp2, rfl⟩

/-- Variant for replacing a block outright: the new block's phis must
relate to the stored block's phis. -/
theorem phiDomainsP_setBlock (f : Function) (n0 : NodeId) (nb : BasicBlock)
    (hg : ∀ p2 ∈ nb.phi_instructions, ∃ p ∈ (blockOf f n0).phi_instructions,
      p2.incoming_values.map Prod.fst = p.incoming_values.map Prod.fst)
    (h : phiDomainsP f) : phiDomainsP (updateBlock f n0 (fun _ => nb)) := by
  apply phiDomainsP_step f (updateBlock f n0 (fun _ => nb)) rfl rfl _ h
  intro n p2 hp2
  left
  rw [blockOf_updateBlock] at hp2
  by_cases hn : n = n0
  · subst hn
    rw [if_pos rfl] at hp2
    cases hl : f.blocks.lookup n with
    | none =>
      rw [hl] at hp2
      simp [emptyBlock] at hp2
    | some b =>
      rw [hl] at hp2
      simp only [Option.map_some', Option.getD_some] at hp2
      exact hg p2 hp2
  · rw [if_neg hn] at hp2
    exact ⟨p2, hp2, rfl⟩

/-- Replacing reads in a phi keeps its key list. -/
theorem phi_replace_keys (p : Phi) (old new : ValueId) :
    (p.replaceValuesRead old new).incoming_values.map Prod.fst
      = p.incoming_values.map Prod.fst := by
  unfold Phi.replaceValuesRead
  simp only [List.map_map]
  apply List.map_congr_left
  intro kv _
  by_cases h : kv.2 = old <;> simp [h]

theorem phiDomainsP_insertPhiAt (f : Function) (dfNode : NodeId) (v : ValueId)
    (h : phiDomainsP f) : phiDomainsP (insertPhiAt f dfNode v) := by
  apply phiDomainsP_step f (insertPhiAt f dfNode v) rfl rfl _ h
  intro n p2 hp2
  unfold insertPhiAt at hp2
  rw [blockOf_updateBlock] at hp2
  by_cases hn : n = dfNode
  · subst hn
    rw [if_pos rfl] at hp2
    cases hl : f.blocks.lookup n with
    | none =>
      rw [hl] at hp2
      simp [emptyBlock] at hp2
    | some b =>
      rw [hl] at hp2
      simp only [Option.map_some', Option.getD_some] at hp2
      rcases List.mem_append.mp hp2 with hold | hnew
      · left
        refine ⟨p2, ?_, rfl⟩
        unfold blockOf
        rw [hl]
        exact hold
      · right
        have hp2e : p2 = ⟨v, (predecessors f n).map (fun p => (p, v))⟩ := by
          simpa using hnew
        subst hp2e
        intro x
        simp only [List.map_map]
        constructor
        · intro hx
          rcases List.mem_map.mp hx with ⟨y, hy, he⟩
          have : y = x := by simpa using he
          rwa [← this]
        · intro hx
          exact List.mem_map.mpr ⟨x, hx, rfl⟩
  · rw [if_neg hn] at hp2
    left
    exact ⟨p2, hp2, rfl⟩

theorem phiDomainsP_processFrontiers (dfs : List NodeId) (ntw : List (NodeId × List ValueId))
    (value : ValueId) :
    ∀ st : PhiWorkState, phiDomainsP st.f →
      phiDomainsP (processFrontiers dfs ntw value st).f := by
  induction dfs with
  | nil => intro st h; exact h
  | cons dfNode rest ih =>
    intro st h
    unfold processFrontiers
    rw [List.foldl_cons]
    apply ih
    by_cases hmem : dfNode ∈ st.nodesWithPhi
    · simpa [hmem] using h
    · simpa [hmem] using phiDomainsP_insertPhiAt st.f dfNode value h

theorem phiDomainsP_phiWorkLoop (df : List (NodeId × List NodeId))
    (ntw : List (NodeId × List ValueId)) (value : ValueId) :
    ∀ (fuel : Nat) (st : PhiWorkState), phiDomainsP st.f →
      phiDomainsP (phiWorkLoop df ntw value fuel st).f := by
  intro fuel
  induction fuel with
  | zero => intro st h; exact h
  | succ fuel ih =>
    intro st h
    unfold phiWorkLoop
    cases hs : st.stack with
    | nil => exact h
    | cons node rest =>
      dsimp only
      cases hdf : df.lookup node with
      | some dfs =>
        apply ih
        exact phiDomainsP_processFrontiers dfs ntw value _ h
      | none =>
        apply ih
        exact h

theorem phiDomainsP_phiInsertFold (df : List (NodeId × List NodeId))
    (ntw : List (NodeId × List ValueId)) (fuel : Nat) :
    ∀ (vw : List (ValueId × List NodeId)) (f : Function), phiDomainsP f →
      phiDomainsP (vw.foldl (fun f p =>
        (phiWorkLoop df ntw p.1 fuel
          { f := f, nodesWithPhi := [], stack := p.2.reverse }).f) f) := by
  intro vw
  induction vw with
  | nil => intro f h; exact h
  | cons p rest ih =>
    intro f h
    rw [List.foldl_cons]
    apply ih
    exact phiDomainsP_phiWorkLoop df ntw p.1 fuel _ h

theorem phiDomainsP_phiInsertion (fuel : Nat) (f : Function)
    (df : List (NodeId × List NodeId)) (h : phiDomainsP f) :
    phiDomainsP (phiInsertion fuel f df) := by
  unfold phiInsertion
  exact phiDomainsP_phiInsertFold df (nodeToValuesWritten f df) fuel _ f h

theorem processWrite_blocks (f : Function) (vs : ValueStacks) (w : ValueId) :
    (processWrite f vs w).1.blocks = f.blocks ∧
    (processWrite f vs w).1.nodes = f.nodes ∧
    (processWrite f vs w).1.edges = f.edges := by
  unfold processWrite
  cases vs.lookup w <;> exact ⟨rfl, rfl, rfl⟩

theorem processInner_blocks (f : Function) (vs : ValueStacks) (i : Inner) :
    (processInner f vs i).1.blocks = f.blocks ∧
    (processInner f vs i).1.nodes = f.nodes ∧
    (processInner f vs i).1.edges = f.edges := by
  unfold processInner
  cases h : (i.mapReads (topFun vs)).valuesWritten with
  | nil => exact ⟨rfl, rfl, rfl⟩
  | cons w t =>
    cases t with
    | nil => exact processWrite_blocks f vs w
    | cons w2 t2 => exact ⟨rfl, rfl, rfl⟩

theorem phiFold_blocks (ps : List Phi) :
    ∀ (acc : Function × ValueStacks × List Phi),
      ((ps.foldl (fun acc p =>
          let r := processPhiWrite acc.1 acc.2.1 p
          (r.1, r.2.1, acc.2.2 ++ [r.2.2])) acc).1).blocks = acc.1.blocks ∧
      ((ps.foldl (fun acc p =>
          let r := processPhiWrite acc.1 acc.2.1 p
          (r.1, r.2.1, acc.2.2 ++ [r.2.2])) acc).1).nodes = acc.1.nodes ∧
      ((ps.foldl (fun acc p =>
          let r := processPhiWrite acc.1 acc.2.1 p
          (r.1, r.2.1, acc.2.2 ++ [r.2.2])) acc).1).edges = acc.1.edges := by
  induction ps with
  | nil => intro acc; exact ⟨rfl, rfl, rfl⟩
  | cons p rest ih =>
    intro acc
    rw [List.foldl_cons]
    have h1 := ih (let r := processPhiWrite acc.1 acc.2.1 p
                   (r.1, r.2.1, acc.2.2 ++ [r.2.2]))
    have h2 : (processPhiWrite acc.1 acc.2.1 p).1.blocks = acc.1.blocks ∧
        (processPhiWrite acc.1 acc.2.1 p).1.nodes = acc.1.nodes ∧
        (processPhiWrite acc.1 acc.2.1 p).1.edges = acc.1.edges :=
      processWrite_blocks acc.1 acc.2.1 p.dest
    exact ⟨h1.1.trans h2.1, (h1.2.1).trans h2.2.1, (h1.2.2).trans h2.2.2⟩

theorem innerFold_blocks (is : List Inner) :
    ∀ (acc : Function × ValueStacks × List Inner),
      ((is.foldl (fun acc i =>
          let r := processInner acc.1 acc.2.1 i
          (r.1, r.2.1, acc.2.2 ++ [r.2.2])) acc).1).blocks = acc.1.blocks ∧
      ((is.foldl (fun acc i =>
          let r := processInner acc.1 acc.2.1 i
          (r.1, r.2.1, acc.2.2 ++ [r.2.2])) acc).1).nodes = acc.1.nodes ∧
      ((is.foldl (fun acc i =>
          let r := processInner acc.1 acc.2.1 i
          (r.1, r.2.1, acc.2.2 ++ [r.2.2])) acc).1).edges = acc.1.edges := by
  induction is with
  | nil => intro acc; exact ⟨rfl, rfl, rfl⟩
  | cons i rest ih =>
    intro acc
    rw [List.foldl_cons]
    have h1 := ih (let r := processInner acc.1 acc.2.1 i
                   (r.1, r.2.1, acc.2.2 ++ [r.2.2]))
    have h2 := processInner_blocks acc.1 acc.2.1 i
    exact ⟨h1.1.trans h2.1, (h1.2.1).trans h2.2.1, (h1.2.2).trans h2.2.2⟩

/-- Every phi produced by the phi-prefix visit keeps the incoming map of
a phi of the visited list (the visit only renames the dest). -/
theorem phiWriteFold_mem (ps : List Phi) :
    ∀ (acc : Function × ValueStacks × List Phi) (p2 : Phi),
      p2 ∈ (ps.foldl (fun acc p =>
          let r := processPhiWrite acc.1 acc.2.1 p
          (r.1, r.2.1, acc.2.2 ++ [r.2.2])) acc).2.2 →
      p2 ∈ acc.2.2 ∨ ∃ p ∈ ps, p2.incoming_values = p.incoming_values := by
  induction ps with
  | nil => intro acc p2 h; exact Or.inl h
  | cons p rest ih =>
    intro acc p2 h
    rw [List.foldl_cons] at h
    rcases ih _ p2 h with hmem | ⟨q, hq, he⟩
    · rcases List.mem_append.mp hmem with h1 | h2
      · exact Or.inl h1
      · right
        refine ⟨p, List.mem_cons_self _ _, ?_⟩
        have he2 : p2 = (processPhiWrite acc.1 acc.2.1 p).2.2 := by simpa using h2
        rw [he2]
        rfl
    · exact Or.inr ⟨q, List.mem_cons_of_mem _ hq, he⟩

theorem visitPhis_state (f : Function) (vs : ValueStacks) (ps : List Phi) :
    (visitPhis f vs ps).1.blocks = f.blocks ∧
    (visitPhis f vs ps).1.nodes = f.nodes ∧
    (visitPhis f vs ps).1.edges = f.edges :=
  phiFold_blocks ps (f, vs, [])

theorem visitInners_state (f : Function) (vs : ValueStacks) (is : List Inner) :
    (visitInners f vs is).1.blocks = f.blocks ∧
    (visitInners f vs is).1.nodes = f.nodes ∧
    (visitInners f vs is).1.edges = f.edges :=
  innerFold_blocks is (f, vs, [])

theorem blockOf_eq_of_blocks (f f2 : Function) (h : f2.blocks = f.blocks) (n : NodeId) :
    blockOf f2 n = blockOf f n := by
  unfold blockOf
  rw [h]

theorem phiDomainsP_visitBlock (f : Function) (vs : ValueStacks) (node : NodeId)
    (h : phiDomainsP f) : phiDomainsP (visitBlock f vs node).1 := by
  unfold visitBlock
  dsimp only
  have hphis := visitPhis_state f vs (blockOf f node).phi_instructions
  have hinner := visitInners_state (visitPhis f vs (blockOf f node).phi_instructions).1
    (visitPhis f vs (blockOf f node).phi_instructions).2.1
    (blockOf f node).inner_instructions
  have hpd : phiDomainsP (visitInners
      (visitPhis f vs (blockOf f node).phi_instructions).1
      (visitPhis f vs (blockOf f node).phi_instructions).2.1
      (blockOf f node).inner_instructions).1 :=
    phiDomainsP_congr f _ (hinner.1.trans hphis.1) (hinner.2.1.trans hphis.2.1)
      (hinner.2.2.trans hphis.2.2) h
  apply phiDomainsP_setBlock _ node _ _ hpd
  intro p2 hp2
  have hp2b : p2 ∈ (visitPhis f vs (blockOf f node).phi_instructions).2.2 := hp2
  rcases phiWriteFold_mem (blockOf f node).phi_instructions (f, vs, []) p2 hp2b with
    habs | ⟨p, hp, he⟩
  · cases habs
  · refine ⟨p, ?_, ?_⟩
    · rw [blockOf_eq_of_blocks f _ (hinner.1.trans hphis.1) node]
      exact hp
    · rw [he]

theorem phiDomainsP_updateSuccessorPhis (node : NodeId) (vs : ValueStacks) :
    ∀ (l : List NodeId) (f : Function), phiDomainsP f →
      phiDomainsP (l.foldl
        (fun f succ =>
          updateBlock f succ (fun b =>
            let phis := b.phi_instructions.map (fun p =>
              { p with incoming_values := p.incoming_values.map (fun kv =>
                  if kv.1 = node then (kv.1, topFun vs kv.2) else kv) })
            { b with phi_instructions := phis })) f) := by
  intro l
  induction l with
  | nil => intro f h; exact h
  | cons succ rest ih =>
    intro f h
    rw [List.foldl_cons]
    apply ih
    apply phiDomainsP_updateBlock _ succ _ _ h
    intro b p2 hp2
    dsimp only at hp2
    rcases List.mem_map.mp hp2 with ⟨p, hp, rfl⟩
    refine ⟨p, hp, ?_⟩
    dsimp only
    rw [List.map_map]
    apply List.map_congr_left
    intro kv _
    by_cases hk : kv.1 = node <;> simp [hk]

theorem phiDomainsP_splitValuesLoop (domTree : List (NodeId × NodeId)) :
    ∀ (fuel : Nat) (f : Function) (visited : List NodeId)
      (stack : List (NodeId × ValueStacks)), phiDomainsP f →
      phiDomainsP (splitValuesLoop domTree fuel f visited stack) := by
  intro fuel
  induction fuel with
  | zero => intro f visited stack h; exact h
  | succ fuel ih =>
    intro f visited stack h
    unfold splitValuesLoop
    cases stack with
    | nil => exact h
    | cons pr rest =>
      obtain ⟨node, vs⟩ := pr
      dsimp only
      apply ih
      by_cases hv : node ∈ visited
      · simpa [hv] using h
      · simp only [hv, if_false]
        exact phiDomainsP_updateSuccessorPhis node (visitBlock f vs node).2 _ _
          (phiDomainsP_visitBlock f vs node h)

theorem phiDomainsP_splitValues (fuel : Nat) (f : Function) (root : NodeId)
    (domTree : List (NodeId × NodeId)) (h : phiDomainsP f) :
    phiDomainsP (splitValues fuel f root domTree) :=
  phiDomainsP_splitValuesLoop domTree fuel f [] [(root, [])] h

theorem mem_foldl_eraseIdx (idxs : List Nat) :
    ∀ (l : List Phi) (p : Phi), p ∈ idxs.foldl (fun l i => l.eraseIdx i) l → p ∈ l := by
  induction idxs with
  | nil => intro l p h; exact h
  | cons i rest ih =>
    intro l p h
    rw [List.foldl_cons] at h
    exact (List.eraseIdx_sublist l i).subset (ih _ p h)

theorem phiDomainsP_removalStep (f : Function) (nm : NodeId × List Nat)
    (h : phiDomainsP f) : phiDomainsP (removalStep f nm) := by
  apply phiDomainsP_updateBlock _ nm.1 _ _ h
  intro b p2 hp2
  unfold removePhis at hp2
  exact ⟨p2, mem_foldl_eraseIdx nm.2.reverse b.phi_instructions p2 hp2, rfl⟩

theorem phiDomainsP_removalFold (l : List (NodeId × List Nat)) :
    ∀ f : Function, phiDomainsP f → phiDomainsP (l.foldl removalStep f) := by
  induction l with
  | nil => intro f h; exact h
  | cons e rest ih =>
    intro f h
    rw [List.foldl_cons]
    exact ih _ (phiDomainsP_removalStep f e h)

theorem phiDomainsP_subStep (n : NodeId) (f : Function) (s : ValueId × ValueId)
    (h : phiDomainsP f) : phiDomainsP (subStep n f s) := by
  apply phiDomainsP_updateBlock _ n _ _ h
  intro b p2 hp2
  unfold BasicBlock.replaceValuesRead at hp2
  dsimp only at hp2
  rcases List.mem_map.mp hp2 with ⟨p, hp, rfl⟩
  exact ⟨p, hp, phi_replace_keys p s.1 s.2⟩

theorem phiDomainsP_subFold (subs : List (ValueId × ValueId)) (n : NodeId) :
    ∀ f : Function, phiDomainsP f → phiDomainsP (subs.foldl (subStep n) f) := by
  induction subs with
  | nil => intro f h; exact h
  | cons s rest ih =>
    intro f h
    rw [List.foldl_cons]
    exact ih _ (phiDomainsP_subStep n f s h)

theorem phiDomainsP_subOuterFold (ns : List NodeId) (subs : List (ValueId × ValueId)) :
    ∀ f : Function, phiDomainsP f →
      phiDomainsP (ns.foldl (fun f n => subs.foldl (subStep n) f) f) := by
  induction ns with
  | nil => intro f h; exact h
  | cons n rest ih =>
    intro f h
    rw [List.foldl_cons]
    exact ih _ (phiDomainsP_subFold subs n f h)

theorem phiDomainsP_prunePassApply (f : Function) (h : phiDomainsP f) :
    phiDomainsP (prunePassApply f) := by
  unfold prunePassApply applySubs applyRemovals
  exact phiDomainsP_subOuterFold _ _ _ (phiDomainsP_removalFold _ f h)

theorem phiDomainsP_pruneLoop : ∀ (fuel : Nat) (f : Function), phiDomainsP f →
    phiDomainsP (pruneLoop fuel f) := by
  intro fuel
  induction fuel with
  | zero => intro f h; exact h
  | succ fuel ih =>
    intro f h
    unfold pruneLoop
    by_cases hm : (passMarks f).isEmpty
    · simpa [hm] using h
    · simp only [hm, if_false]
      exact ih _ (phiDomainsP_prunePassApply f h)

theorem phiDomainsP_replaceReadsEverywhere (f : Function) (old new : ValueId)
    (h : phiDomainsP f) : phiDomainsP (replaceReadsEverywhere f old new) := by
  apply phiDomainsP_step f (replaceReadsEverywhere f old new) rfl rfl _ h
  intro n p2 hp2
  left
  rw [blockOf_replaceReadsEverywhere] at hp2
  unfold BasicBlock.replaceValuesRead at hp2
  dsimp only at hp2
  rcases List.mem_map.mp hp2 with ⟨p, hp, rfl⟩
  exact ⟨p, hp, phi_replace_keys p old new⟩

theorem phiDomainsP_removeInnerAt (f : Function) (n : NodeId) (i : Nat)
    (h : phiDomainsP f) : phiDomainsP (removeInnerAt f n i) := by
  apply phiDomainsP_updateBlock _ n _ _ h
  intro b p2 hp2
  exact ⟨p2, hp2, rfl⟩

theorem phiDomainsP_elideStep (f : Function) (node : NodeId) (k : Nat) (a : Inner)
    (h : phiDomainsP f) : phiDomainsP (elideStep f node k a) := by
  cases a with
  | move d s =>
    exact phiDomainsP_removeInnerAt _ node k
      (phiDomainsP_replaceReadsEverywhere f d s h)
  | loadConstant d c => exact h
  | binary d l r => exact h
  | unary d v => exact h
  | call d fn args => exact h

theorem phiDomainsP_copyElisionBlock (node : NodeId) (l : List (Nat × Inner)) :
    ∀ f : Function, phiDomainsP f →
      phiDomainsP (l.foldl (fun f ii => elideStep f node ii.1 ii.2) f) := by
  induction l with
  | nil => intro f h; exact h
  | cons ii rest ih =>
    intro f h
    rw [List.foldl_cons]
    exact ih _ (phiDomainsP_elideStep f node ii.1 ii.2 h)

theorem phiDomainsP_copyElision (f : Function) (h : phiDomainsP f) :
    phiDomainsP (copyElision f) := by
  unfold copyElision
  generalize f.blocks = es
  revert f
  induction es with
  | nil => intro f h; exact h
  | cons nb rest ih =>
    intro f h
    rw [List.foldl_cons]
    apply ih
    exact phiDomainsP_copyElisionBlock nb.1 _ f h

/-- C5: phi instructions inserted during SSA construction map exactly
the predecessors of their block, and the whole construction (insertion,
renaming, pruning, copy elision) preserves the invariant that every
phi's incoming-value domain equals its block's predecessor set. -/
theorem C5_phi_incoming_domains (o1 : ImmDomOracle) (o2 : FrontierOracle)
    (o3 : DomTreeOracle) (fuel : Nat) (f g : Function)
    (df : List (NodeId × List NodeId)) (h : phiDomainsOk f = true) :
    phiDomainsOk (phiInsertion fuel f df) = true ∧
    (construct o1 o2 o3 fuel f = .ok g → phiDomainsOk g = true) := by
  rw [phiDomainsOk_iff] at h
  constructor
  · rw [phiDomainsOk_iff]
    exact phiDomainsP_phiInsertion fuel f df h
  · intro hc
    rw [phiDomainsOk_iff]
    unfold construct at hc
    cases he : f.entry with
    | none =>
      rw [he] at hc
      cases hc
    | some entry =>
      simp only [he] at hc
      cases h1 : o1 f entry with
      | error e =>
        rw [h1] at hc
        simp at hc
      | ok idoms =>
        simp only [h1] at hc
        cases h2 : o2 f entry idoms with
        | error e =>
          rw [h2] at hc
          simp at hc
        | ok df0 =>
          simp only [h2] at hc
          cases h3 : o3 (phiInsertion fuel f (df0.filter (fun p => !p.2.isEmpty))) idoms with
          | error e =>
            rw [h3] at hc
            simp at hc
          | ok dt =>
            simp only [h3] at hc
            have hg : g = copyElision (pruneLoop
                (phiCount (splitValues fuel
                  (phiInsertion fuel f (df0.filter (fun p => !p.2.isEmpty))) entry dt) + 1)
                (splitValues fuel
                  (phiInsertion fuel f (df0.filter (fun p => !p.2.isEmpty))) entry dt)) := by
              cases hc
              rfl
            rw [hg]
            exact phiDomainsP_copyElision _ (phiDomainsP_pruneLoop _ _
              (phiDomainsP_splitValues fuel _ entry dt
                (phiDomainsP_phiInsertion fuel f _ h)))

/-- Witness for C5 at the diamond: the invariant holds before, after
phi insertion, and after the full construction. -/
theorem C5_phi_incoming_domains_witness :
    phiDomainsOk exDiamond = true ∧
    phiDomainsOk (phiInsertion 50 exDiamond exDiamondDF) = true ∧
    construct trivImmDoms (fun _ _ _ => Except.ok exDiamondDF)
        (fun _ _ => Except.ok exDiamondDT) 50 exDiamond
      = Except.ok exDiamondConstructed ∧
    phiDomainsOk exDiamondConstructed = true := by
  have h := C5_phi_incoming_domains trivImmDoms (fun _ _ _ => Except.ok exDiamondDF)
    (fun _ _ => Except.ok exDiamondDT) 50 exDiamond exDiamondConstructed exDiamondDF
    (by decide)
  exact ⟨by decide, h.1, rfl, h.2 rfl⟩

/-- Witness for C6: the diamond function (whose join block holds a
move) ends up move-free. -/
theorem C6_copy_elision_no_moves_witness :
    (exDiamond.blocks.map Prod.fst).Nodup ∧ noMoves (copyElision exDiamond) = true :=
  ⟨by decide, C6_copy_elision_no_moves exDiamond (by decide)⟩

/-- Witness for C8: the entry-less function fails with `NoEntry`, and a
function with an entry and successful analyses constructs
successfully. -/
theorem C8_construct_error_model_witness :
    construct trivImmDoms trivFrontiers trivDomTree 20 exNoEntry
      = .error (.graph .noEntry) ∧
    ∃ g, construct trivImmDoms trivFrontiers trivDomTree 20 exTrivial = .ok g :=
  ⟨(C8_construct_error_model trivImmDoms trivFrontiers trivDomTree 20 exNoEntry).1 rfl,
   (C8_construct_error_model trivImmDoms trivFrontiers trivDomTree 20 exTrivial).2.2
     1 [] [] [] rfl rfl rfl rfl⟩

/-! ### Claims C2, C3, C4 and C9 -/

/-- C2 (amended): when collapse leaves a node count different from one,
`structure` returns the diagnostic comment followed by the root block's
statements (statements of other remaining nodes are dropped); when
exactly one node remains, it returns the root block's statements with no
comment. -/
theorem C2_structure_diagnostic (collapse : CfgFunction → CfgFunction) (f : CfgFunction)
    (root : NodeId) :
    (∀ blk, (collapse f).nodes.length ≠ 1 →
      (collapse f).blocks.lookup root = some blk →
      structureWith collapse f root = some (AstStatement.comment
        ("failed to collapse, total nodes: " ++ Nat.repr (collapse f).nodes.length)
        :: blk.ast)) ∧
    (∀ blk, (collapse f).nodes.length = 1 →
      (collapse f).blocks.lookup root = some blk →
      structureWith collapse f root = some blk.ast) := by
  constructor
  · intro blk h1 h2
    unfold structureWith structureResult
    dsimp only
    rw [if_pos h1, h2]
    rfl
  · intro blk h1 h2
    unfold structureWith structureResult
    dsimp only
    rw [if_neg (by rw [h1]; intro hh; exact hh rfl), h2]
    rfl

/-- Witness for C2: the stuck two-node function gets the comment plus
the root's statements; a one-node function gets its block verbatim. -/
theorem C2_structure_diagnostic_witness :
    structureWith (fun g => g) exStuck 0
      = some (AstStatement.comment ("failed to collapse, total nodes: 2")
          :: [AstStatement.breakS]) ∧
    structureWith (fun g => { g with nodes := [0] }) exStuck 0
      = some [AstStatement.breakS] := by
  have h1 := (C2_structure_diagnostic (fun g => g) exStuck 0).1
    ⟨[AstStatement.breakS], some (.jump 1)⟩ (by decide) rfl
  have h2 := (C2_structure_diagnostic (fun g => { g with nodes := [0] }) exStuck 0).2
    ⟨[AstStatement.breakS], some (.jump 1)⟩ (by decide) rfl
  exact ⟨h1, h2⟩

/-- Counterexample to C2 as stated: on the stuck two-node function the
result keeps only the root block's statements, not the concatenation of
all remaining nodes' statements. -/
theorem C2_structure_diagnostic_counterexample :
    structureWith (fun g => g) exStuck 0
      = some (AstStatement.comment ("failed to collapse, total nodes: 2")
          :: [AstStatement.breakS]) ∧
    specConcatAll exStuck
      = AstStatement.comment ("failed to collapse, total nodes: 2")
          :: [AstStatement.breakS, AstStatement.continueS] ∧
    structureWith (fun g => g) exStuck 0 ≠ some (specConcatAll exStuck) := by
  refine ⟨by decide, by decide, by decide⟩

/-- C3 (amended): the lifter translates an unconditional jump to
nothing, a conditional jump to an `If` shell with empty then and else
branches, and a return to a `Return` statement with an empty values
list (the terminator's values are not propagated). -/
theorem C3_terminator_translation (f : Function) (n : NodeId) (blk : BasicBlock)
    (hb : f.blocks.lookup n = some blk) :
    (∀ t, blk.terminator = some (.unconditionalJump t) →
      lift_block f n false = some (liftInners blk.inner_instructions)) ∧
    (∀ c a b, blk.terminator = some (.conditionalJump c a b) →
      lift_block f n false
        = some (liftInners blk.inner_instructions ++ [if_statement c])) ∧
    (∀ vs, blk.terminator = some (.ret vs) →
      lift_block f n false
        = some (liftInners blk.inner_instructions ++ [return_statement])) := by
  refine ⟨?_, ?_, ?_⟩
  · intro t ht
    simp only [lift_block, hb, ht]
    rfl
  · intro c a b ht
    simp only [lift_block, hb, ht]
    rfl
  · intro vs ht
    simp only [lift_block, hb, ht]
    rfl

/-- Witness for C3 at concrete blocks of the diamond and the returning
function. -/
theorem C3_terminator_translation_witness :
    lift_block exDiamond 2 false
      = some (liftInners [Inner.loadConstant 7 (.num 1)]) ∧
    lift_block exDiamond 1 false
      = some (liftInners [Inner.loadConstant 7 (.num 0), Inner.loadConstant 8 .nil]
          ++ [if_statement 8]) ∧
    lift_block exRet 0 false = some (liftInners [] ++ [return_statement]) := by
  have h2 := (C3_terminator_translation exDiamond 2
    ⟨[], [Inner.loadConstant 7 (.num 1)], some (.unconditionalJump 4)⟩ rfl).1 4 rfl
  have h1 := (C3_terminator_translation exDiamond 1
    ⟨[], [Inner.loadConstant 7 (.num 0), Inner.loadConstant 8 .nil],
      some (.conditionalJump 8 2 3)⟩ rfl).2.1 8 2 3 rfl
  have h0 := (C3_terminator_translation exRet 0 ⟨[], [], some (.ret [5])⟩ rfl).2.2 [5] rfl
  exact ⟨h2, h1, h0⟩

/-- Counterexample to C3 as stated: the block of `exRet` returns value
5, yet the lifted statement is a `Return` with an empty values list, not
one carrying that value. -/
theorem C3_terminator_translation_counterexample :
    (blockOf exRet 0).terminator = some (.ret [5]) ∧
    lift_block exRet 0 false = some [AstIrStat.ret []] ∧
    lift_block exRet 0 false ≠ some [AstIrStat.ret [AstIrExpr.localE 5]] := by
  refine ⟨rfl, rfl, ?_⟩
  intro h
  rw [show lift_block exRet 0 false = some [AstIrStat.ret []] from rfl] at h
  simp at h

/-- C4: the rules of `try_match_pattern` fire in the fixed order
compound conditional, loop collapse, jump collapse, plain conditional;
the first rule that fires determines the result, independently of the
later rules. -/
theorem C4_rule_priority (compound : CompoundRule) (loopRule : LoopRule) (jump : JumpRule)
    (conditional : CondRule) (g : CfgFunction) (node : NodeId) :
    (∀ blk t pe g2, (successorBlocks g node).length = 2 →
      g.blocks.lookup node = some blk → blk.terminator = some t →
      t.as_conditional = some pe → compound g node pe.1 pe.2 = some g2 →
      tryMatchPattern compound loopRule jump conditional g node = .ok (true, g2)) ∧
    (∀ blk t pe g2, (successorBlocks g node).length = 2 →
      g.blocks.lookup node = some blk → blk.terminator = some t →
      t.as_conditional = some pe → compound g node pe.1 pe.2 = none →
      loopRule g node = some g2 →
      tryMatchPattern compound loopRule jump conditional g node = .ok (true, g2)) ∧
    (∀ g2, (successorBlocks g node).length ≠ 2 → loopRule g node = some g2 →
      tryMatchPattern compound loopRule jump conditional g node = .ok (true, g2)) ∧
    (∀ s0 g2, successorBlocks g node = [s0] → loopRule g node = none →
      jump g node s0 = some g2 →
      tryMatchPattern compound loopRule jump conditional g node = .ok (true, g2)) ∧
    (∀ blk t pe g2, (successorBlocks g node).length = 2 →
      g.blocks.lookup node = some blk → blk.terminator = some t →
      t.as_conditional = some pe → compound g node pe.1 pe.2 = none →
      loopRule g node = none → conditional g node pe.1 pe.2 = some g2 →
      tryMatchPattern compound loopRule jump conditional g node = .ok (true, g2)) := by
  refine ⟨?_, ?_, ?_, ?_, ?_⟩
  · intro blk t pe g2 hlen hlk ht hcond hcomp
    obtain ⟨a, b, hab⟩ := List.length_eq_two.mp hlen
    simp [tryMatchPattern, hab, hlk, ht, hcond, hcomp]
  · intro blk t pe g2 hlen hlk ht hcond hcomp hloop
    obtain ⟨a, b, hab⟩ := List.length_eq_two.mp hlen
    simp [tryMatchPattern, tryMatchRest, hab, hlk, ht, hcond, hcomp, hloop]
  · intro g2 hlen hloop
    unfold tryMatchPattern
    dsimp only
    rw [if_neg hlen]
    simp only [tryMatchRest, hloop]
  · intro s0 g2 hlist hloop hjump
    simp [tryMatchPattern, tryMatchRest, hlist, hloop, hjump]
  · intro blk t pe g2 hlen hlk ht hcond hcomp hloop hcondr
    obtain ⟨a, b, hab⟩ := List.length_eq_two.mp hlen
    simp [tryMatchPattern, tryMatchRest, hab, hlk, ht, hcond, hcomp, hloop, hcondr]

/-- Witness for C4 at a concrete conditional node with all four rules
willing to fire: the compound rule wins. -/
theorem C4_rule_priority_witness :
    tryMatchPattern (fun g _ _ _ => some g) (fun g _ => some g) (fun g _ _ => some g)
      (fun g _ _ _ => some g) exCfg 0 = .ok (true, exCfg) :=
  (C4_rule_priority (fun g _ _ _ => some g) (fun g _ => some g) (fun g _ _ => some g)
    (fun g _ _ _ => some g) exCfg 0).1
    ⟨[], some (.conditional 1 2)⟩ (.conditional 1 2) (1, 2) exCfg
    (by decide) rfl rfl rfl rfl

/-- C9: with at most two successors per node, and a conditional
terminator on every two-successor node, neither the restructurer's
`try_match_pattern` (its unwraps and its `unreachable!`) nor the
lifter's per-node dispatch (its "too many successors" panic) is
reached. -/
theorem C9_no_panics (compound : CompoundRule) (loopRule : LoopRule) (jump : JumpRule)
    (conditional : CondRule) (g : CfgFunction) (node : NodeId)
    (postDomPred : NodeId → Option NodeId) (loop_exits : List NodeId) (f : Function)
    (s : LiftState) (node2 : NodeId) :
    ((successorBlocks g node).length ≤ 2 →
      ((successorBlocks g node).length = 2 →
        ∃ blk t pe, g.blocks.lookup node = some blk ∧ blk.terminator = some t ∧
          t.as_conditional = some pe) →
      ∃ r, tryMatchPattern compound loopRule jump conditional g node = .ok r) ∧
    ((successors f node2).length ≤ 2 →
      linkStep postDomPred loop_exits f s node2 ≠ .error .tooManySuccessors) := by
  constructor
  · intro hlen hcond2
    cases hls : successorBlocks g node with
    | nil =>
      rw [show tryMatchPattern compound loopRule jump conditional g node
          = tryMatchRest loopRule jump conditional g node (successorBlocks g node) from by
        unfold tryMatchPattern
        dsimp only
        rw [if_neg (by rw [hls]; simp)]]
      unfold tryMatchRest
      rw [hls]
      cases hloop : loopRule g node with
      | some g2 => exact ⟨(true, g2), rfl⟩
      | none => exact ⟨(false, g), rfl⟩
    | cons a tl =>
      cases tl with
      | nil =>
        rw [show tryMatchPattern compound loopRule jump conditional g node
            = tryMatchRest loopRule jump conditional g node (successorBlocks g node) from by
          unfold tryMatchPattern
          dsimp only
          rw [if_neg (by rw [hls]; simp)]]
        unfold tryMatchRest
        rw [hls]
        cases hloop : loopRule g node with
        | some g2 => exact ⟨(true, g2), rfl⟩
        | none =>
          dsimp only
          cases hjump : jump g node a with
          | some g2 => exact ⟨(true, g2), rfl⟩
          | none => exact ⟨(false, g), rfl⟩
      | cons b tl2 =>
        cases tl2 with
        | nil =>
          obtain ⟨blk, t, pe, hlk, ht, hcd⟩ := hcond2 (by rw [hls]; rfl)
          unfold tryMatchPattern
          dsimp only
          rw [if_pos (by rw [hls]; rfl), hlk]
          dsimp only
          rw [ht]
          dsimp only
          rw [hcd]
          dsimp only
          cases hcomp : compound g node pe.1 pe.2 with
          | some g2 => exact ⟨(true, g2), rfl⟩
          | none =>
            dsimp only
            unfold tryMatchRest
            cases hloop : loopRule g node with
            | some g2 => exact ⟨(true, g2), rfl⟩
            | none =>
              dsimp only
              rw [hls]
              dsimp only
              rw [hlk]
              dsimp only
              rw [ht]
              dsimp only
              rw [hcd]
              dsimp only
              cases hcdr : conditional g node pe.1 pe.2 with
              | some g2 => exact ⟨(true, g2), rfl⟩
              | none => exact ⟨(false, g), rfl⟩
        | cons c tl3 =>
          exfalso
          rw [hls] at hlen
          simp at hlen
  · intro hlen
    cases hls : successors f node2 with
    | nil =>
      unfold linkStep
      rw [hls]
      intro h
      cases h
    | cons a tl =>
      cases tl with
      | nil =>
        unfold linkStep
        rw [hls]
        intro h
        cases h
      | cons b tl2 =>
        cases tl2 with
        | nil =>
          unfold linkStep
          rw [hls]
          dsimp only
          cases hpd : postDomPred node2 with
          | some ex =>
            dsimp only
            by_cases hse : a = ex
            · rw [if_pos hse]
              intro h
              injection h with h2
              cases h2
            · rw [if_neg hse]
              by_cases hel : (!(b == ex && !(ex ∈ loop_exits))) = true
              · rw [if_pos hel]
                intro h
                cases h
              · rw [if_neg hel]
                intro h
                cases h
          | none =>
            intro h
            cases h
        | cons c tl3 =>
          exfalso
          rw [hls] at hlen
          simp at hlen

/-- Witness for C9: the conditional node of `exCfg` matches without
panicking, and the two-successor node of `exDiamond` dispatches without
the "too many successors" panic. -/
theorem C9_no_panics_witness :
    (∃ r, tryMatchPattern (fun _ _ _ _ => none) (fun _ _ => none) (fun _ _ _ => none)
      (fun _ _ _ _ => none) exCfg 0 = .ok r) ∧
    linkStep (fun _ => some 3) [] exDiamond ⟨[], [], []⟩ 1
      ≠ .error .tooManySuccessors := by
  have h := C9_no_panics (fun _ _ _ _ => none) (fun _ _ => none) (fun _ _ _ => none)
    (fun _ _ _ _ => none) exCfg 0 (fun _ => some 3) [] exDiamond ⟨[], [], []⟩ 1
  exact ⟨h.1 (by decide)
    (fun _ => ⟨⟨[], some (.conditional 1 2)⟩, .conditional 1 2, (1, 2), rfl, rfl, rfl⟩),
    h.2 (by decide)⟩

end Medal
